import Mathlib

/-!
Verification of the ASCEND plugin-manager and configuration subsystem.

Each definition in this file is a shallow embedding of a function of the
repository (`src/ascend/...`); theorems check the specification's claims
against these definitions.  Python dictionaries are modelled as ordered
association lists (`List (String × _)`), Python exceptions as `Except` /
explicit error components, and the mutable manager/loader state as explicit
state-passing.
-/

namespace Ascend

/-! ## String primitives

Python string operations used by the sources, implemented structurally on
`List Char` so that every definition is kernel-computable.  A Python `str`
is modelled as `List Char`. -/

/-- Python `str.split(sep)` for a single-character separator. -/
def splitOnChar (sep : Char) : List Char → List (List Char)
  | [] => [[]]
  | c :: cs =>
    let rest := splitOnChar sep cs
    if c = sep then [] :: rest
    else
      match rest with
      | [] => [[c]]
      | r :: rs => (c :: r) :: rs

/-- ASCII-digit test (`str.isdigit` on the strings this repository handles). -/
def isDigitChar (c : Char) : Bool := '0' ≤ c ∧ c ≤ '9'

/-- Python `str.isdigit()`: non-empty and all digits. -/
def isDigits (s : List Char) : Bool := !s.isEmpty && s.all isDigitChar

/-- Digits to a natural number (`int(s)` for an all-digit string). -/
def digitsToNat (s : List Char) : Nat :=
  s.foldl (fun n c => n * 10 + (c.toNat - '0'.toNat)) 0

/-- Whitespace test for Python `str.strip()`. -/
def isSpaceChar (c : Char) : Bool := c = ' ' ∨ c = '\t' ∨ c = '\n' ∨ c = '\r'

/-- Python `str.strip()`. -/
def stripC (s : List Char) : List Char :=
  ((s.dropWhile isSpaceChar).reverse.dropWhile isSpaceChar).reverse

/-- Python `str.startswith(p)`. -/
def startsWithC : List Char → List Char → Bool
  | [], _ => true
  | _ :: _, [] => false
  | p :: ps, c :: cs => p = c && startsWithC ps cs

/-- Python `str.lower()` for ASCII letters. -/
def lowerC (s : List Char) : List Char :=
  s.map fun c => if 'A' ≤ c ∧ c ≤ 'Z' then Char.ofNat (c.toNat + 32) else c

/-! ## Version utilities (`src/ascend/plugin_manager/version_utils.py`)

The repository delegates constraint evaluation to the external `packaging`
library (`SpecifierSet`, `version.parse`).  That library is modelled here for
the fragment the repository exercises: dotted numeric release versions and
single comparison-clause constraints (`>=`, `==`, `>`, `<=`, `<`); anything
else fails to parse, which in the source raises and selects the fallback
path of `check_version_compatibility`. -/

/-- Model of `packaging.version.parse` restricted to dotted numeric releases:
`"1.2.3" ↦ [1, 2, 3]`; any non-numeric component fails (raises in Python). -/
def parseVersion (s : List Char) : Option (List Nat) :=
  (splitOnChar '.' s).mapM fun p => if isDigits p then some (digitsToNat p) else none

/-- PEP 440 comparison of release tuples: componentwise, the shorter tuple
padded with zeros. -/
def cmpRelease : List Nat → List Nat → Ordering
  | [], bs => if bs.all (· = 0) then .eq else .lt
  | a :: as, [] => if (a :: as).all (· = 0) then .eq else .gt
  | a :: as, b :: bs =>
    if a < b then .lt else if b < a then .gt else cmpRelease as bs

/-- The comparison operators `check_version_compatibility` understands. -/
inductive VersionOp
  | ge | eq | gt | le | lt
  deriving DecidableEq, Repr

/-- Evaluate one comparison clause on parsed versions. -/
def evalVersionOp (op : VersionOp) (a b : List Nat) : Bool :=
  match op with
  | .ge => cmpRelease a b ≠ .lt
  | .eq => cmpRelease a b = .eq
  | .gt => cmpRelease a b = .gt
  | .le => cmpRelease a b ≠ .gt
  | .lt => cmpRelease a b = .lt

/-- Split a constraint string into an operator prefix and its remainder,
following the `startswith` chain of the source (`>=`, `==`, `>`, `<=`, `<`,
checked in that order). -/
def splitOpPrefix (c : List Char) : Option (VersionOp × List Char) :=
  if startsWithC ['>', '='] c then some (.ge, c.drop 2)
  else if startsWithC ['=', '='] c then some (.eq, c.drop 2)
  else if startsWithC ['>'] c then some (.gt, c.drop 1)
  else if startsWithC ['<', '='] c then some (.le, c.drop 2)
  else if startsWithC ['<'] c then some (.lt, c.drop 1)
  else none

/-- Model of `packaging.specifiers.SpecifierSet(constraint).contains(version.parse(actual))`:
`some b` when both the constraint (one comparison clause over a numeric
version) and the actual version parse, `none` when the library raises. -/
def trySpecifierSet (actual constraint : List Char) : Option Bool :=
  match splitOpPrefix (stripC constraint) with
  | none => none
  | some (op, rest) =>
    match parseVersion (stripC rest), parseVersion actual with
    | some c, some a => some (evalVersionOp op a c)
    | _, _ => none

/-- The manual-fallback branch of `check_version_compatibility`: prefix-match
the operator, compare parsed versions; with no recognised operator prefix,
exact string equality; `none` when a version fails to parse (the inner
`except` returns `False` in the source). -/
def tryFallback (actual constraint : List Char) : Option Bool :=
  match splitOpPrefix constraint with
  | some (op, rest) =>
    match parseVersion actual, parseVersion (stripC rest) with
    | some a, some c => some (evalVersionOp op a c)
    | _, _ => none
  | none => some (actual = constraint)

/-- `check_version_compatibility(actual_version, constraint)`: try the
`SpecifierSet` path; on failure fall back to manual prefix matching; if a
version still fails to parse there, return `False`. -/
def check_version_compatibility (actual constraint : List Char) : Bool :=
  match trySpecifierSet actual constraint with
  | some b => b
  | none =>
    match tryFallback actual constraint with
    | some b => b
    | none => false

/-- `validate_plugin_version(plugin_info, constraint)`: a falsy constraint
(`None` or the empty string) always passes; a falsy version always fails;
otherwise delegate to `check_version_compatibility`.  `plugin_info['version']`
is modelled by the `version` argument. -/
def validate_plugin_version (version : Option (List Char)) (constraint : Option (List Char)) : Bool :=
  match constraint with
  | none => true
  | some c =>
    if c = [] then true
    else
      match version with
      | none => false
      | some v => if v = [] then false else check_version_compatibility v c

/-- Python `s.split(sep, 1)`: split at the first occurrence only. -/
def splitFirst (sep : Char) : List Char → Option (List Char × List Char)
  | [] => none
  | c :: cs =>
    if c = sep then some ([], cs)
    else
      match splitFirst sep cs with
      | none => none
      | some (l, r) => some (c :: l, r)

/-- `parse_version_constraint(plugin_spec)`: split at the first `:`;
both sides stripped; no `:` means no constraint. -/
def parse_version_constraint (spec : List Char) : List Char × Option (List Char) :=
  match splitFirst ':' spec with
  | some (n, c) => (stripC n, some (stripC c))
  | none => (stripC spec, none)

/-! ## Association lists

Python `dict`s are modelled as ordered association lists.  `lookupA` is
`d.get(k)`, `setA` is `d[k] = v` (updating in place when the key exists,
appending otherwise, as CPython preserves insertion order). -/

/-- `d.get(k)` on an ordered dictionary. -/
def lookupA {α β : Type} [DecidableEq α] : List (α × β) → α → Option β
  | [], _ => none
  | (k', v) :: rest, k => if k' = k then some v else lookupA rest k

/-- `d[k] = v` on an ordered dictionary: overwrite in place, else append. -/
def setA {α β : Type} [DecidableEq α] : List (α × β) → α → β → List (α × β)
  | [], k, v => [(k, v)]
  | (k', v') :: rest, k, v =>
    if k' = k then (k', v) :: rest else (k', v') :: setA rest k v

/-- `del d[k]` / `d.pop(k, None)`: drop the key's entry. -/
def removeA {α β : Type} [DecidableEq α] : List (α × β) → α → List (α × β)
  | [], _ => []
  | (k', v') :: rest, k =>
    if k' = k then rest else (k', v') :: removeA rest k

/-- The keys of an ordered dictionary. -/
def keysA {α β : Type} (l : List (α × β)) : List α := l.map Prod.fst

/-! ## Configuration documents

A parsed YAML/JSON document (`ascend.core.types.Config`): scalars, strings,
sequences and nested mappings.  Python floats are kept as their literal text
(`vFloat`); no claim depends on float arithmetic. -/

/-- A Python value inside a parsed configuration document. -/
inductive ConfigValue where
  | vNull
  | vBool (b : Bool)
  | vInt (n : Int)
  | vFloat (lit : List Char)
  | vStr (s : List Char)
  | vList (xs : List ConfigValue)
  | vDict (entries : List (List Char × ConfigValue))

/-! ## Environment-variable substitution (`src/ascend/config/parser.py`)

`ConfigParser.env_var_pattern` is the regex `\$\{([^}]+)\}`;
`_resolve_env_var_string` uses `.search` (first match) to pick the variable
name and `.sub` (all matches) for the replacement. -/

/-- The longest brace-free prefix (`[^}]*`). -/
def takeUntilBrace : List Char → List Char
  | [] => []
  | c :: cs => if c = '}' then [] else c :: takeUntilBrace cs

/-- The rest of the input after its longest brace-free prefix. -/
def dropUntilBrace : List Char → List Char
  | [] => []
  | c :: cs => if c = '}' then c :: cs else dropUntilBrace cs

/-- Try to match `{NAME}` (the tail of the regex `\$\{([^}]+)\}`) at the head
of the input; return the non-empty brace-free name and the remaining text. -/
def tryPH : List Char → Option (List Char × List Char)
  | '{' :: rest =>
    match dropUntilBrace rest with
    | '}' :: tail =>
      if takeUntilBrace rest = [] then none else some (takeUntilBrace rest, tail)
    | _ => none
  | _ => none

/-- First match of `\$\{([^}]+)\}` in the input (Python `re.search`):
`some (before, name, after)` splits the string around the first match. -/
def phSplit : List Char → Option (List Char × List Char × List Char)
  | [] => none
  | c :: cs =>
    if c = '$' then
      match tryPH cs with
      | some (name, rest) => some ([], name, rest)
      | none => (phSplit cs).map fun p => (c :: p.1, p.2.1, p.2.2)
    else (phSplit cs).map fun p => (c :: p.1, p.2.1, p.2.2)

/-- Replace every non-overlapping match of the placeholder pattern by `v`
(Python `re.sub`); the fuel only bounds the number of replaced matches and is
instantiated with the string length, which `subPH_fuel` shows is enough. -/
def replaceAllPH (v : List Char) : Nat → List Char → List Char
  | 0, s => s
  | fuel + 1, s =>
    match phSplit s with
    | none => s
    | some (before, _, after) => before ++ v ++ replaceAllPH v fuel after

/-- `self.env_var_pattern.sub(env_value, value)`.  The substituted value is
inserted literally (`re.sub`'s template-escape processing of backslashes in
the replacement is not modelled). -/
def subPH (v s : List Char) : List Char := replaceAllPH v s.length s

/-- Python `s.replace(".", "", 1)`: drop the first `.` only. -/
def removeFirstDot : List Char → List Char
  | [] => []
  | c :: cs => if c = '.' then cs else c :: removeFirstDot cs

/-- The opportunistic re-typing performed on the substituted string:
all-digits → `int`, digits-with-one-dot → `float`, `true`/`false`
(case-insensitive) → `bool`, `null` (case-insensitive) → `None`,
anything else stays a string. -/
def retype (r : List Char) : ConfigValue :=
  if isDigits r then .vInt (digitsToNat r)
  else if isDigits (removeFirstDot r) then .vFloat r
  else if lowerC r = "true".data then .vBool true
  else if lowerC r = "false".data then .vBool false
  else if lowerC r = "null".data then .vNull
  else .vStr r

/-- `ConfigParser._resolve_env_var_string(value)`: search for the first
placeholder; no match or an unset variable returns the original string;
otherwise substitute every match with the first variable's value and re-type
the result.  `env` models `os.environ`. -/
def resolve_env_var_string (env : List (List Char × List Char)) (value : List Char) :
    ConfigValue :=
  match phSplit value with
  | none => .vStr value
  | some (_, name, _) =>
    match lookupA env name with
    | none => .vStr value
    | some ev => retype (subPH ev value)

/-! ## Deep merge (`ConfigParser.merge`, `src/ascend/config/parser.py`)

`merge(base_config, override_config)` copies the base and then walks the
override's items in order: when the key is already present and both the
present and the incoming value are dicts it merges them recursively,
otherwise the incoming value overwrites (in place, keeping the key's
position) or is appended.  `mergeUpsert` is one loop iteration,
`mergeIfDicts` the `isinstance`-guarded body. -/

/-- Dictionary entries of a configuration document. -/
abbrev Entries := List (List Char × ConfigValue)

mutual

/-- `ConfigParser.merge(base_config, override_config)` (the `for` loop over
the override's items, the copied base being the accumulator). -/
def merge : Entries → Entries → Entries
  | result, [] => result
  | result, (k, v) :: rest => merge (mergeUpsert result k v) rest
termination_by r o => (sizeOf o, sizeOf r)

/-- One iteration of the merge loop: `result[key] = ...` — overwrite in
place when the key exists, else append. -/
def mergeUpsert : Entries → List Char → ConfigValue → Entries
  | [], k, v => [(k, v)]
  | (k', v') :: rest, k, v =>
    if k' = k then (k', mergeIfDicts v' v) :: rest
    else (k', v') :: mergeUpsert rest k v
termination_by r k v => (sizeOf v + 1, sizeOf r)

/-- The loop body's guard: both values dicts → recursive merge, otherwise
the override's value wins outright. -/
def mergeIfDicts : ConfigValue → ConfigValue → ConfigValue
  | .vDict db, .vDict od => .vDict (merge db od)
  | _, o => o
termination_by b o => (sizeOf o, 0)

end

/-- Well-formedness of a document value, as guaranteed for anything parsed
from YAML/JSON: every mapping in the tree has pairwise-distinct keys
(Python dicts cannot hold duplicates). -/
inductive WFValue : ConfigValue → Prop
  | null : WFValue .vNull
  | bool (b : Bool) : WFValue (.vBool b)
  | int (n : Int) : WFValue (.vInt n)
  | float (s : List Char) : WFValue (.vFloat s)
  | str (s : List Char) : WFValue (.vStr s)
  | list {xs : List ConfigValue} : (∀ x ∈ xs, WFValue x) → WFValue (.vList xs)
  | dict {es : Entries} : (keysA es).Nodup → (∀ e ∈ es, WFValue e.2) →
      WFValue (.vDict es)

/-- Well-formedness of a top-level document (a dict's entry list). -/
def WFEntries (es : Entries) : Prop :=
  (keysA es).Nodup ∧ ∀ e ∈ es, WFValue e.2

/-! ## Plugin discovery: dependency resolution
(`src/ascend/plugin_manager/discovery.py`)

`PluginDiscovery._dependency_graph` maps each discovered plugin name to
`set(info.dependencies)`; it is modelled as an association list from names to
duplicate-free dependency lists.  Python's hash-ordered set iteration is
replaced by list order — every claim proved below is order-independent. -/

/-- A plugin name. -/
abbrev PName := List Char

/-- `PluginDiscovery._dependency_graph`. -/
abbrev DepGraph := List (PName × List PName)

/-- Well-formedness of the dependency graph as Python guarantees it: dict
keys are unique and each value, being a `set`, is duplicate-free. -/
def WFGraph (g : DepGraph) : Prop :=
  (keysA g).Nodup ∧ ∀ e ∈ g, e.2.Nodup

/-- The worklist expansion in `resolve_dependencies`: pop a name, fail on a
name missing from the dependency graph, otherwise add its unseen
dependencies to both the seen set and the worklist, until the worklist is
empty.  The fuel only bounds the iteration count; `resolve_dependencies`
passes enough for the loop to always finish (`expandLoop_measure`). -/
def expandLoop (g : DepGraph) : Nat → List PName → List PName →
    Except (List Char) (List PName)
  | _, all, [] => .ok all
  | 0, _, _ :: _ => .error "unreachable: expansion fuel exhausted".data
  | fuel + 1, all, current :: rest =>
    match lookupA g current with
    | none => .error ("Unknown plugin: ".data ++ current)
    | some deps =>
      let nw := deps.filter fun d => decide (d ∉ all)
      expandLoop g fuel (all ++ nw) (rest ++ nw)

/-- `in_degree[plugin] += 1; graph[dep].add(plugin)` for each `dep` of
`plugin` that is inside the requested name list (the inner loop of
`_topological_sort`'s graph construction). -/
def addEdges (plugins : List PName) (plugin : PName) :
    List (PName × Int) → List (PName × List PName) → List PName →
    List (PName × Int) × List (PName × List PName)
  | indeg, adj, [] => (indeg, adj)
  | indeg, adj, d :: ds =>
    if d ∈ plugins then
      addEdges plugins plugin
        (setA indeg plugin ((lookupA indeg plugin).getD 0 + 1))
        (setA adj d ((lookupA adj d).getD [] ++ [plugin]))
        ds
    else addEdges plugins plugin indeg adj ds

/-- The outer loop of `_topological_sort`'s graph construction: visit each
requested plugin, skipping names absent from the dependency graph. -/
def buildAdj (g : DepGraph) (plugins : List PName) :
    List (PName × Int) → List (PName × List PName) → List PName →
    List (PName × Int) × List (PName × List PName)
  | indeg, adj, [] => (indeg, adj)
  | indeg, adj, p :: ps =>
    match lookupA g p with
    | some deps =>
      let ia := addEdges plugins p indeg adj deps
      buildAdj g plugins ia.1 ia.2 ps
    | none => buildAdj g plugins indeg adj ps

/-- `for neighbor in graph[current]: in_degree[neighbor] -= 1; if == 0:
queue.append(neighbor)` — returns the updated counters and the newly
enqueued names in neighbour order. -/
def processNeighbors : List (PName × Int) → List PName →
    List (PName × Int) × List PName
  | indeg, [] => (indeg, [])
  | indeg, nb :: rest =>
    let d := (lookupA indeg nb).getD 0 - 1
    let step := processNeighbors (setA indeg nb d) rest
    (step.1, (if d = 0 then [nb] else []) ++ step.2)

/-- The Kahn dequeue loop of `_topological_sort` (`while queue: ...`,
FIFO via `queue.pop(0)`).  The fuel only bounds the iteration count;
`_topological_sort` passes `plugins.length`, which the invariant proof shows
always suffices. -/
def kahnLoop (adj : List (PName × List PName)) :
    Nat → List PName → List (PName × Int) → List PName → List PName
  | 0, _, _, result => result
  | fuel + 1, queue, indeg, result =>
    match queue with
    | [] => result
    | current :: rest =>
      let step := processNeighbors indeg ((lookupA adj current).getD [])
      kahnLoop adj fuel (rest ++ step.2) step.1 (result ++ [current])

/-- `PluginDiscovery._topological_sort(plugins)`: build in-degrees and the
reverse adjacency restricted to `plugins`, run Kahn's algorithm from the
zero-in-degree queue, and report a circular dependency when the result is
shorter than the input. -/
def topological_sort (g : DepGraph) (plugins : List PName) :
    Except (List Char) (List PName) :=
  let ia := buildAdj g plugins (plugins.map (·, (0 : Int)))
    (plugins.map (·, ([] : List PName))) plugins
  let queue := plugins.filter fun p => (lookupA ia.1 p).getD 0 = 0
  let result := kahnLoop ia.2 plugins.length queue ia.1 []
  if result.length ≠ plugins.length then
    .error "Circular dependency detected among plugins".data
  else .ok result

/-- Total length of all dependency lists — an upper bound on how many new
names the expansion can ever discover. -/
def sumDepLens (g : DepGraph) : Nat := (g.map fun e => e.2.length).sum

/-- `PluginDiscovery.resolve_dependencies(plugin_names)`: expand the
requested names to their dependency closure (hard error on an unknown name),
then topologically sort the expanded set. -/
def resolve_dependencies (g : DepGraph) (names : List PName) :
    Except (List Char) (List PName) :=
  match expandLoop g (names.length + sumDepLens g) names names with
  | .error e => .error e
  | .ok all => topological_sort g all

/-- Transitive reachability along declared dependencies, starting from the
requested names — the set `resolve_dependencies` is specified to expand. -/
inductive Reaches (g : DepGraph) (names : List PName) : PName → Prop
  | base {x : PName} : x ∈ names → Reaches g names x
  | step {y x : PName} {deps : List PName} : Reaches g names y →
      lookupA g y = some deps → x ∈ deps → Reaches g names x

/-- One dependency edge: `a` declares `b` as a dependency. -/
def DepEdge (g : DepGraph) (a b : PName) : Prop :=
  ∃ deps, lookupA g a = some deps ∧ b ∈ deps

/-- All dependency names of the graph, with multiplicity — the universe the
expansion loop can draw new names from. -/
def joinDeps (g : DepGraph) : List PName := (g.map fun e => e.2).flatten

/-- Decreasing measure of the expansion loop: worklist length plus the
number of graph-declared dependency occurrences not yet seen. -/
def expandMeasure (g : DepGraph) (all tp : List PName) : Nat :=
  tp.length + ((joinDeps g).filter fun x => decide (x ∉ all)).length

/-- The declared dependencies of `p` restricted to the sorted name set —
what drives in-degrees and adjacency in `_topological_sort`. -/
def rdepsL (g : DepGraph) (plugins : List PName) (p : PName) : List PName :=
  match lookupA g p with
  | some deps => deps.filter fun d => decide (d ∈ plugins)
  | none => []

/-- Specification of the reverse adjacency `_topological_sort` builds:
the plugins (in list order) that declare `d` as a dependency. -/
def adjSpec (g : DepGraph) (plugins : List PName) (d : PName) : List PName :=
  plugins.filter fun p => decide (d ∈ rdepsL g plugins p)

/-- How many elements of `l` are already in `res`. -/
def countIn (l res : List PName) : Nat :=
  (l.filter fun x => decide (x ∈ res)).length

/-- Position of the first occurrence of `x` in `l` (the list's length when
absent) — used to state "appears strictly before". -/
def idxOfA : List PName → PName → Nat
  | [], _ => 0
  | a :: l, x => if a = x then 0 else idxOfA l x + 1

/-! ## Plugin manager lifecycle (`src/ascend/plugin_manager/manager.py`)

A plugin instance is modelled by the surface the manager touches: its
reported `version` attribute and whether `configure`/`start`/`stop` raise
when called.  An operation returns the updated manager together with
`some message` when it raises (`PluginError` or a propagated `KeyError`),
`none` on success — exceptions that mutate status before re-raising are
therefore modelled faithfully. -/

/-- A live plugin instance. -/
structure PluginInst where
  version : List Char
  configureFails : Bool
  startFails : Bool
  stopFails : Bool
  deriving Repr, DecidableEq

/-- Discovery-time metadata (`PluginInfo`): declared dependencies, whether
the constructor raises, and the instance it builds. -/
structure MPluginInfo where
  dependencies : List PName
  ctorFails : Bool
  inst : PluginInst
  deriving Repr, DecidableEq

/-- `PluginState`. -/
inductive PluginState
  | discovered | loaded | initialized | running | stopped | error
  deriving Repr, DecidableEq

/-- `PluginStatus`. -/
structure PluginStatus where
  state : PluginState
  error : Option (List Char) := none
  config : Option Entries := none
  dependencies : List (PName × Bool) := []

/-- The mutable state of one `PluginManager` (with its `PluginDiscovery`'s
loaded-plugin map). -/
structure Manager where
  plugins : List (PName × PluginInst)
  plugin_status : List (PName × PluginStatus)
  discovered : List (PName × MPluginInfo)
  discoveryLoaded : List PName

/-- Python truthiness of an optional configuration dict (`if config:`). -/
def configTruthy : Option Entries → Bool
  | none => false
  | some [] => false
  | some (_ :: _) => true

/-- Python truthiness of the parsed version constraint
(`if version_constraint:`). -/
def constraintTruthy : Option (List Char) → Bool
  | none => false
  | some [] => false
  | some (_ :: _) => true

/-- `PluginManager.initialize_plugin(plugin_name, config)`: requires the
plugin to be present in `self.plugins` (else `PluginError`), applies the
configuration when truthy (a raising `configure` flips the status to Error
and re-raises wrapped), then marks the status Initialized and records the
config. -/
def initialize_plugin (m : Manager) (name : PName) (config : Option Entries) :
    Manager × Option (List Char) :=
  match lookupA m.plugins name with
  | none => (m, some ("插件未加载: ".data ++ name))
  | some plugin =>
    if configTruthy config && plugin.configureFails then
      match lookupA m.plugin_status name with
      | some st =>
        let st' := { st with state := .error, error := some "configure raised".data }
        ({ m with plugin_status := setA m.plugin_status name st' },
         some ("插件初始化失败 ".data ++ name))
      | none => (m, some "KeyError".data)
    else
      match lookupA m.plugin_status name with
      | none => (m, some "KeyError".data)
      | some st =>
        let st' := { st with state := .initialized, config := config }
        ({ m with plugin_status := setA m.plugin_status name st' }, none)

/-- `PluginManager.start_plugin(plugin_name)`: requires status state
Initialized (else `PluginError`, state untouched); a raising `start` flips
the status to Error and re-raises wrapped; otherwise the state becomes
Running. -/
def start_plugin (m : Manager) (name : PName) : Manager × Option (List Char) :=
  match lookupA m.plugin_status name with
  | none => (m, some ("插件未初始化: ".data ++ name))
  | some st =>
    if st.state ≠ .initialized then (m, some ("插件未初始化: ".data ++ name))
    else
      match lookupA m.plugins name with
      | none =>
        let st' := { st with state := .error, error := some "KeyError".data }
        ({ m with plugin_status := setA m.plugin_status name st' },
         some ("插件启动失败 ".data ++ name))
      | some plugin =>
        if plugin.startFails then
          let st' := { st with state := .error, error := some "start raised".data }
          ({ m with plugin_status := setA m.plugin_status name st' },
           some ("插件启动失败 ".data ++ name))
        else
          let st' := { st with state := .running }
          ({ m with plugin_status := setA m.plugin_status name st' }, none)

/-- `PluginManager.stop_plugin(plugin_name)`: requires status state Running
(else `PluginError`, state untouched); a raising `stop` flips the status to
Error and re-raises wrapped; otherwise the state becomes Stopped. -/
def stop_plugin (m : Manager) (name : PName) : Manager × Option (List Char) :=
  match lookupA m.plugin_status name with
  | none => (m, some ("插件未运行: ".data ++ name))
  | some st =>
    if st.state ≠ .running then (m, some ("插件未运行: ".data ++ name))
    else
      match lookupA m.plugins name with
      | none =>
        let st' := { st with state := .error, error := some "KeyError".data }
        ({ m with plugin_status := setA m.plugin_status name st' },
         some ("插件停止失败 ".data ++ name))
      | some plugin =>
        if plugin.stopFails then
          let st' := { st with state := .error, error := some "stop raised".data }
          ({ m with plugin_status := setA m.plugin_status name st' },
           some ("插件停止失败 ".data ++ name))
        else
          let st' := { st with state := .stopped }
          ({ m with plugin_status := setA m.plugin_status name st' }, none)

/-- `PluginManager.unload_plugin(plugin_name)`: a silent no-op for unknown
names; a Running plugin is stopped first — the `stop_plugin` call is NOT
wrapped in try/except, so a raising `stop` propagates and the removals below
never run; otherwise the instance is removed from the discovery map, from
`self.plugins` and from `self.plugin_status`. -/
def unload_plugin (m : Manager) (name : PName) : Manager × Option (List Char) :=
  match lookupA m.plugins name with
  | none => (m, none)
  | some _ =>
    let step :=
      match lookupA m.plugin_status name with
      | some st => if st.state = .running then stop_plugin m name else (m, none)
      | none => (m, none)
    match step with
    | (m1, some e) => (m1, some e)
    | (m1, none) =>
      ({ m1 with
          discoveryLoaded := m1.discoveryLoaded.erase name,
          plugins := removeA m1.plugins name,
          plugin_status := removeA m1.plugin_status name }, none)

mutual

/-- `PluginManager.load_plugin(plugin_spec)`: parse the spec; return the
existing instance immediately when the name is already loaded; otherwise
look up discovery info, load missing dependencies recursively, instantiate,
check the version constraint, register instance and Loaded status.  Any
failure marks the status Error (when one exists) and re-raises wrapped with
the spec.  The fuel bounds the dependency recursion (Python would hit its
recursion limit on a dependency cycle — also an exception). -/
def load_plugin : Nat → Manager → List Char → Manager × Except (List Char) PluginInst
  | fuel, m, spec =>
    let pc := parse_version_constraint spec
    match lookupA m.plugins pc.1 with
    | some p => (m, .ok p)
    | none =>
      let r : Manager × Except (List Char) PluginInst :=
        match lookupA m.discovered pc.1 with
        | none => (m, .error ("插件未找到: ".data ++ pc.1))
        | some info =>
          match loadDeps fuel m info.dependencies with
          | (m1, some e) => (m1, .error e)
          | (m1, none) =>
            if info.ctorFails then (m1, .error "constructor raised".data)
            else
              if constraintTruthy pc.2 &&
                  !validate_plugin_version (some info.inst.version) pc.2 then
                (m1, .error ("插件 ".data ++ pc.1 ++ " 版本 ".data ++ info.inst.version ++
                  " 不满足约束".data))
              else
                let newStatus :=
                  match lookupA m1.plugin_status pc.1 with
                  | some st =>
                    let newDeps := info.dependencies.foldl
                      (fun ds d => setA ds d true) st.dependencies
                    let st' := { st with
                                 state := PluginState.loaded,
                                 dependencies := newDeps }
                    setA m1.plugin_status pc.1 st'
                  | none =>
                    let st' : PluginStatus := { state := PluginState.loaded,
                                                dependencies := info.dependencies.map (·, true) }
                    setA m1.plugin_status pc.1 st'
                let m2 := { m1 with
                            plugins := setA m1.plugins pc.1 info.inst,
                            plugin_status := newStatus }
                (m2, .ok info.inst)
      match r with
      | (m1, .ok p) => (m1, .ok p)
      | (m1, .error e) =>
        let m2 :=
          match lookupA m1.plugin_status pc.1 with
          | some st =>
            let st' := { st with state := PluginState.error, error := some e }
            { m1 with plugin_status := setA m1.plugin_status pc.1 st' }
          | none => m1
        (m2, .error ("插件加载失败 ".data ++ spec ++ ": ".data ++ e))
termination_by fuel _ _ => (fuel, 1, 0)

/-- The dependency pre-loading loop inside `load_plugin`
(`for dep in info.dependencies: if dep not in self.plugins: self.load_plugin(dep)`). -/
def loadDeps : Nat → Manager → List PName → Manager × Option (List Char)
  | _, m, [] => (m, none)
  | fuel, m, dep :: rest =>
    if (lookupA m.plugins dep).isSome then loadDeps fuel m rest
    else
      match fuel with
      | 0 => (m, some "RecursionError".data)
      | fuel' + 1 =>
        match load_plugin fuel' m dep with
        | (m1, .ok _) => loadDeps (fuel' + 1) m1 rest
        | (m1, .error e) => (m1, some e)
termination_by fuel _ deps => (fuel, 0, deps.length)

end

/-! ## ConfigLoader cache (`src/ascend/config/loader.py`)

Claim C8 is about Python object aliasing, so documents are modelled with an
explicit heap: a dict is a heap object whose entries hold scalars or
references to other heap objects.  `dict.copy()` — the operation `load`
uses both when storing into and when serving from `self._config_cache` —
allocates a new object with the same (shallow) entry list. -/

/-- A value inside a heap-allocated dict: scalar or reference. -/
inductive PVal
  | pint (n : Int)
  | pstr (s : List Char)
  | pref (a : Nat)
  deriving Repr, DecidableEq

/-- The payload of a dict object. -/
abbrev PObj := List (List Char × PVal)

/-- A heap: address → dict payload. -/
abbrev Heap := List (Nat × PObj)

/-- An address unused by the heap. -/
def freshAddr (h : Heap) : Nat := (h.map (·.1)).foldr max 0 + 1

/-- Python `d.copy()`: allocate a fresh object with the same entry list —
nested references are shared, not copied. -/
def copyDict (h : Heap) (a : Nat) : Heap × Nat :=
  (h ++ [(freshAddr h, (lookupA h a).getD [])], freshAddr h)

/-- Python `d[k] = v` on the heap object at `a`. -/
def setKeyH (h : Heap) (a : Nat) (k : List Char) (v : PVal) : Heap :=
  match lookupA h a with
  | some obj => setA h a (setA obj k v)
  | none => h

/-- Read `doc[k1][k2]` through one level of nesting. -/
def readPath2 (h : Heap) (a : Nat) (k1 k2 : List Char) : Option PVal :=
  match lookupA h a with
  | some obj =>
    match lookupA obj k1 with
    | some (.pref b) =>
      match lookupA h b with
      | some obj2 => lookupA obj2 k2
      | none => none
    | _ => none
  | none => none

/-- The caching part of `ConfigLoader.load` (the path argument already
resolved): on a cache hit return `self._config_cache[config_path].copy()`;
on a miss, parse (the parse/inheritance/validation pipeline is abstracted as
`parsed`, the address of the document it produced), store
`config.copy()` into the cache and return the original `config`. -/
def load_cached (h : Heap) (cache : List (List Char × Nat)) (path : List Char)
    (parsed : Nat) : Heap × List (List Char × Nat) × Nat :=
  match lookupA cache path with
  | some c =>
    let hc := copyDict h c
    (hc.1, cache, hc.2)
  | none =>
    let hc := copyDict h parsed
    (hc.1, setA cache path hc.2, parsed)

/-! ## ConfigLoader path resolution and reload (claim C9)

For C9 the aliasing of C8 is irrelevant, so documents are plain values; the
parse pipeline for a file is abstracted as the map `fs` from absolute paths
to the documents they currently parse to. -/

/-- `os.path.abspath` on POSIX for an already-normalized path: absolute
paths are returned as-is, relative ones are joined to the working
directory. -/
def abspath (cwd p : List Char) : List Char :=
  match p with
  | c :: rest => if c = '/' then c :: rest else cwd ++ '/' :: c :: rest
  | [] => cwd ++ ['/']

/-- `ConfigLoader.load(config_path)` (with `validate=True, cache=True`):
resolve to an absolute path first, then serve from the cache, else parse
(abstracted by `fs`), cache and return; a missing file is a `ConfigError`. -/
def cl_load (fs : List (List Char × ConfigValue)) (cwd : List Char)
    (cache : List (List Char × ConfigValue)) (path : List Char) :
    List (List Char × ConfigValue) × Except (List Char) ConfigValue :=
  let ap := abspath cwd path
  match lookupA cache ap with
  | some doc => (cache, .ok doc)
  | none =>
    match lookupA fs ap with
    | some doc => (setA cache ap doc, .ok doc)
    | none => (cache, .error ("Failed to load config: ".data ++ ap))

/-- `ConfigLoader.reload(config_path)`: drop the cache entry stored under
the *raw* `config_path` key — not under its absolute resolution — then
delegate to `load`. -/
def cl_reload (fs : List (List Char × ConfigValue)) (cwd : List Char)
    (cache : List (List Char × ConfigValue)) (path : List Char) :
    List (List Char × ConfigValue) × Except (List Char) ConfigValue :=
  let cache1 := if (lookupA cache path).isSome then removeA cache path else cache
  cl_load fs cwd cache1 path

/-! A concrete cache scenario: a document `{a: {x: 1}}` is loaded and cached,
the nested mapping of the returned document is mutated, and the same path is
loaded again from the cache. -/

/-- Heap holding the parsed document `{a: {x: 1}}` at address 0 (its nested
mapping at address 1). -/
def c8Heap0 : Heap := [(0, [("a".data, PVal.pref 1)]), (1, [("x".data, PVal.pint 1)])]

/-- First load of `/f`: cache miss, stores a (shallow) copy, returns the
parsed document. -/
def c8Load1 : Heap × List (List Char × Nat) × Nat := load_cached c8Heap0 [] "/f".data 0

/-- Mutate the nested mapping of the document returned by the first load:
`doc["a"]["x"] = 2`. -/
def c8Mut : Heap := setKeyH c8Load1.1 1 "x".data (PVal.pint 2)

/-- Second load of `/f`: cache hit. -/
def c8Load2 : Heap × List (List Char × Nat) × Nat :=
  load_cached c8Mut c8Load1.2.1 "/f".data 99

end Ascend

/-! ## Theorems -/

namespace Ascend

/-! ### Placeholder-scanner lemmas (claim C6) -/

lemma takeUntilBrace_append (name tail : List Char) (h3 : '}' ∉ name) :
    takeUntilBrace (name ++ '}' :: tail) = name := by
  induction name with
  | nil => simp [takeUntilBrace]
  | cons c cs ih =>
    have hc : c ≠ '}' := fun h => h3 (h ▸ List.mem_cons_self c cs)
    simp only [List.cons_append, takeUntilBrace, if_neg hc, List.append_eq]
    rw [ih fun h => h3 (List.mem_cons_of_mem c h)]

lemma dropUntilBrace_append (name tail : List Char) (h3 : '}' ∉ name) :
    dropUntilBrace (name ++ '}' :: tail) = '}' :: tail := by
  induction name with
  | nil => simp [dropUntilBrace]
  | cons c cs ih =>
    have hc : c ≠ '}' := fun h => h3 (h ▸ List.mem_cons_self c cs)
    simp only [List.cons_append, dropUntilBrace, if_neg hc, List.append_eq]
    exact ih fun h => h3 (List.mem_cons_of_mem c h)

lemma tryPH_eq (name tail : List Char) (h2 : name ≠ []) (h3 : '}' ∉ name) :
    tryPH ('{' :: (name ++ '}' :: tail)) = some (name, tail) := by
  simp only [tryPH, dropUntilBrace_append name tail h3, takeUntilBrace_append name tail h3,
    if_neg h2]

lemma phSplit_of_no_dollar (s : List Char) (h : '$' ∉ s) : phSplit s = none := by
  induction s with
  | nil => rfl
  | cons c cs ih =>
    have hc : c ≠ '$' := fun hq => h (hq ▸ List.mem_cons_self c cs)
    rw [phSplit, if_neg hc, ih fun hm => h (List.mem_cons_of_mem c hm)]
    rfl

lemma phSplit_decomp (a name b : List Char) (h1 : '$' ∉ a) (h2 : name ≠ [])
    (h3 : '}' ∉ name) :
    phSplit (a ++ '$' :: '{' :: (name ++ '}' :: b)) = some (a, name, b) := by
  induction a with
  | nil =>
    rw [List.nil_append, phSplit, if_pos rfl, tryPH_eq name b h2 h3]
  | cons c cs ih =>
    have hc : c ≠ '$' := fun hq => h1 (hq ▸ List.mem_cons_self c cs)
    rw [List.cons_append, phSplit, if_neg hc, ih fun hm => h1 (List.mem_cons_of_mem c hm)]
    rfl

lemma replaceAllPH_of_none (v : List Char) (f : Nat) (s : List Char)
    (h : phSplit s = none) : replaceAllPH v f s = s := by
  cases f with
  | zero => rfl
  | succ n => rw [replaceAllPH, h]

lemma replaceAllPH_succ (v : List Char) (f : Nat) (s a name b : List Char)
    (h : phSplit s = some (a, name, b)) :
    replaceAllPH v (f + 1) s = a ++ v ++ replaceAllPH v f b := by
  rw [replaceAllPH, h]

lemma subPH_single (a name b v : List Char) (h1 : '$' ∉ a) (h2 : name ≠ [])
    (h3 : '}' ∉ name) (h4 : '$' ∉ b) :
    subPH v (a ++ '$' :: '{' :: (name ++ '}' :: b)) = a ++ v ++ b := by
  have hlen : (a ++ '$' :: '{' :: (name ++ '}' :: b)).length =
      (a.length + name.length + b.length + 2) + 1 := by
    simp [List.length_append]; omega
  rw [subPH, hlen,
    replaceAllPH_succ v _ _ a name b (phSplit_decomp a name b h1 h2 h3),
    replaceAllPH_of_none v _ b (phSplit_of_no_dollar b h4)]

/-! ### Association-list lemmas -/

@[simp] lemma keysA_nil {α β : Type} : keysA ([] : List (α × β)) = [] := rfl

@[simp] lemma keysA_cons {α β : Type} (e : α × β) (l : List (α × β)) :
    keysA (e :: l) = e.1 :: keysA l := rfl

@[simp] lemma lookupA_nil {α β : Type} [DecidableEq α] (k : α) :
    lookupA ([] : List (α × β)) k = none := rfl

lemma lookupA_cons {α β : Type} [DecidableEq α] (k' : α) (v : β)
    (l : List (α × β)) (k : α) :
    lookupA ((k', v) :: l) k = if k' = k then some v else lookupA l k := rfl

lemma lookupA_eq_none {α β : Type} [DecidableEq α] (l : List (α × β)) (k : α) :
    lookupA l k = none ↔ k ∉ keysA l := by
  induction l with
  | nil => simp
  | cons e rest ih =>
    obtain ⟨k', v⟩ := e
    by_cases h : k' = k
    · subst h; simp [lookupA_cons]
    · simp [lookupA_cons, h, ih, Ne.symm h]

lemma lookupA_mem {α β : Type} [DecidableEq α] {l : List (α × β)} {k : α} {v : β}
    (h : lookupA l k = some v) : (k, v) ∈ l := by
  induction l with
  | nil => exact Option.noConfusion h
  | cons e rest ih =>
    obtain ⟨k', v'⟩ := e
    by_cases hk : k' = k
    · subst hk
      rw [lookupA_cons, if_pos rfl, Option.some.injEq] at h
      exact h ▸ List.mem_cons_self _ _
    · rw [lookupA_cons, if_neg hk] at h
      exact List.mem_cons_of_mem _ (ih h)

/-- Two association lists with the same (duplicate-free) key sequence and the
same lookup function are equal. -/
lemma assoc_ext {β : Type} (l₁ : List (List Char × β)) : ∀ (l₂ : List (List Char × β)),
    keysA l₁ = keysA l₂ → (keysA l₁).Nodup →
    (∀ k, lookupA l₁ k = lookupA l₂ k) → l₁ = l₂ := by
  induction l₁ with
  | nil =>
    intro l₂ hk _ _
    cases l₂ with
    | nil => rfl
    | cons e t => simp at hk
  | cons e₁ t₁ ih =>
    intro l₂ hk hnd hl
    obtain ⟨k₁, v₁⟩ := e₁
    cases l₂ with
    | nil => simp at hk
    | cons e₂ t₂ =>
      obtain ⟨k₂, v₂⟩ := e₂
      simp only [keysA_cons, List.cons.injEq] at hk
      obtain ⟨hk12, hkt⟩ := hk
      subst hk12
      have hv : v₁ = v₂ := by
        have h := hl k₁
        rw [lookupA_cons, lookupA_cons, if_pos rfl, if_pos rfl] at h
        exact Option.some.inj h
      subst hv
      simp only [keysA_cons, List.nodup_cons] at hnd
      have ht : t₁ = t₂ := by
        refine ih t₂ hkt hnd.2 fun k => ?_
        by_cases hkk : k₁ = k
        · subst hkk
          rw [(lookupA_eq_none t₁ k₁).mpr hnd.1,
            (lookupA_eq_none t₂ k₁).mpr (hkt ▸ hnd.1)]
        · have h := hl k
          rwa [lookupA_cons, lookupA_cons, if_neg hkk, if_neg hkk] at h
      rw [ht]

/-! ### Merge lemmas (claim C7) -/

lemma keysA_mergeUpsert (db : Entries) (k : List Char) (v : ConfigValue) :
    keysA (mergeUpsert db k v) =
      if k ∈ keysA db then keysA db else keysA db ++ [k] := by
  induction db with
  | nil => simp [mergeUpsert]
  | cons e rest ih =>
    obtain ⟨k', v'⟩ := e
    by_cases h : k' = k
    · subst h; simp [mergeUpsert]
    · rw [mergeUpsert, if_neg h]
      by_cases hm : k ∈ keysA rest
      · simp [ih, hm, Ne.symm h]
      · simp [ih, hm, Ne.symm h]

lemma lookupA_mergeUpsert_self (db : Entries) (k : List Char) (v : ConfigValue) :
    lookupA (mergeUpsert db k v) k =
      some (match lookupA db k with
            | some v' => mergeIfDicts v' v
            | none => v) := by
  induction db with
  | nil => rw [mergeUpsert, lookupA_cons, if_pos rfl, lookupA_nil]
  | cons e rest ih =>
    obtain ⟨k', v'⟩ := e
    by_cases h : k' = k
    · subst h
      rw [mergeUpsert, if_pos rfl, lookupA_cons, if_pos rfl, lookupA_cons, if_pos rfl]
    · rw [mergeUpsert, if_neg h, lookupA_cons, if_neg h, ih, lookupA_cons, if_neg h]

lemma lookupA_mergeUpsert_ne (db : Entries) (k : List Char) (v : ConfigValue)
    (k' : List Char) (h : k' ≠ k) :
    lookupA (mergeUpsert db k v) k' = lookupA db k' := by
  induction db with
  | nil =>
    rw [mergeUpsert, lookupA_cons, if_neg (fun hh => h hh.symm), lookupA_nil]
  | cons e rest ih =>
    obtain ⟨k₀, v₀⟩ := e
    by_cases h0 : k₀ = k
    · subst h0
      rw [mergeUpsert, if_pos rfl, lookupA_cons, if_neg (fun hh => h hh.symm),
        lookupA_cons, if_neg (fun hh => h hh.symm)]
    · rw [mergeUpsert, if_neg h0, lookupA_cons, lookupA_cons, ih]

lemma lookupA_of_mem_nodup {α β : Type} [DecidableEq α] {l : List (α × β)} {k : α}
    {v : β} (hnd : (keysA l).Nodup) (h : (k, v) ∈ l) : lookupA l k = some v := by
  induction l with
  | nil => exact absurd h (List.not_mem_nil _)
  | cons e rest ih =>
    obtain ⟨k', v'⟩ := e
    simp only [keysA_cons, List.nodup_cons] at hnd
    rcases List.mem_cons.mp h with he | ht
    · obtain ⟨rfl, rfl⟩ := Prod.mk.injEq .. ▸ he
      exact (lookupA_cons k v rest k).trans (if_pos rfl)
    · have hne : k' ≠ k := by
        rintro rfl
        exact hnd.1 (List.mem_map.mpr ⟨(k', v), ht, rfl⟩)
      rw [lookupA_cons, if_neg hne, ih hnd.2 ht]

lemma merge_nil (a : Entries) : merge a [] = a := by rw [merge]

lemma merge_cons (a : Entries) (k : List Char) (v : ConfigValue) (rest : Entries) :
    merge a ((k, v) :: rest) = merge (mergeUpsert a k v) rest := by rw [merge]

lemma keysA_merge (a b : Entries) (hb : (keysA b).Nodup) :
    keysA (merge a b) = keysA a ++ (keysA b).filter (fun x => decide (x ∉ keysA a)) := by
  induction b generalizing a with
  | nil => simp [merge_nil]
  | cons e rest ih =>
    obtain ⟨k, v⟩ := e
    simp only [keysA_cons, List.nodup_cons] at hb
    rw [merge_cons, ih (mergeUpsert a k v) hb.2, keysA_mergeUpsert]
    by_cases hm : k ∈ keysA a
    · rw [if_pos hm]
      simp only [keysA_cons, List.filter_cons, decide_eq_true_eq]
      rw [if_neg (by simp [hm])]
    · rw [if_neg hm]
      simp only [keysA_cons, List.filter_cons, decide_eq_true_eq]
      rw [if_pos (by simp [hm]), List.append_assoc, List.singleton_append]
      congr 1
      congr 1
      refine List.filter_congr fun x hx => ?_
      have hxk : x ≠ k := fun hh => hb.1 (hh ▸ hx)
      simp [hxk]

lemma lookupA_merge (a b : Entries) (hb : (keysA b).Nodup) (k : List Char) :
    lookupA (merge a b) k =
      match lookupA b k with
      | none => lookupA a k
      | some ov =>
        some (match lookupA a k with
              | some bv => mergeIfDicts bv ov
              | none => ov) := by
  induction b generalizing a with
  | nil => rw [merge_nil]; rfl
  | cons e rest ih =>
    obtain ⟨k₀, v₀⟩ := e
    simp only [keysA_cons, List.nodup_cons] at hb
    rw [merge_cons, ih (mergeUpsert a k₀ v₀) hb.2]
    by_cases hk : k₀ = k
    · subst hk
      rw [(lookupA_eq_none rest k₀).mpr hb.1, lookupA_mergeUpsert_self,
        lookupA_cons, if_pos rfl]
    · rw [lookupA_mergeUpsert_ne a k₀ v₀ k (fun hh => hk hh.symm),
        lookupA_cons, if_neg hk]

lemma nodup_keysA_merge (a b : Entries) (ha : (keysA a).Nodup)
    (hb : (keysA b).Nodup) : (keysA (merge a b)).Nodup := by
  rw [keysA_merge a b hb]
  refine List.Nodup.append ha (hb.filter _) ?_
  intro x hx hx'
  have := List.of_mem_filter hx'
  simp only [decide_eq_true_eq] at this
  exact this hx

lemma sizeOf_val_lt {es : Entries} {k : List Char} {v : ConfigValue}
    (h : (k, v) ∈ es) : sizeOf v < sizeOf es := by
  induction es with
  | nil => exact absurd h (List.not_mem_nil _)
  | cons e rest ih =>
    rcases List.mem_cons.mp h with he | ht
    · subst he
      simp only [List.cons.sizeOf_spec, Prod.mk.sizeOf_spec]
      omega
    · have := ih ht
      simp only [List.cons.sizeOf_spec]
      omega

lemma mergeIfDicts_cases (x y : ConfigValue) :
    mergeIfDicts x y = y ∨ ∃ dx dy, x = .vDict dx ∧ y = .vDict dy ∧
      mergeIfDicts x y = .vDict (merge dx dy) := by
  cases x <;> cases y <;>
    first
      | (right; exact ⟨_, _, rfl, rfl, by simp [mergeIfDicts]⟩)
      | (left; simp [mergeIfDicts])

lemma WFValue.dict_elim {es : Entries} (h : WFValue (.vDict es)) : WFEntries es := by
  cases h with
  | dict h1 h2 => exact ⟨h1, h2⟩

lemma sizeOf_vDict (es : Entries) : sizeOf (ConfigValue.vDict es) = 1 + sizeOf es := by
  simp

lemma merge_WF_aux : ∀ n : Nat,
    (∀ x y : ConfigValue, sizeOf y ≤ n → WFValue x → WFValue y →
      WFValue (mergeIfDicts x y)) ∧
    (∀ a b : Entries, sizeOf b ≤ n → WFEntries a → WFEntries b →
      WFEntries (merge a b)) := by
  intro n
  induction n using Nat.strong_induction_on with
  | _ n ih =>
    constructor
    · intro x y hy hx hwy
      rcases mergeIfDicts_cases x y with h | ⟨dx, dy, rfl, rfl, h⟩
      · rwa [h]
      · rw [h]
        have hsz : sizeOf dy < n := by
          have := sizeOf_vDict dy ▸ hy; omega
        exact WFValue.dict
          ((ih (sizeOf dy) hsz).2 dx dy le_rfl hx.dict_elim hwy.dict_elim).1
          ((ih (sizeOf dy) hsz).2 dx dy le_rfl hx.dict_elim hwy.dict_elim).2
    · intro a b hb ha hwb
      refine ⟨nodup_keysA_merge a b ha.1 hwb.1, ?_⟩
      rintro ⟨k, v⟩ hmem
      have hlk : lookupA (merge a b) k = some v :=
        lookupA_of_mem_nodup (nodup_keysA_merge a b ha.1 hwb.1) hmem
      rw [lookupA_merge a b hwb.1 k] at hlk
      rcases hob : lookupA b k with _ | ov
      · rw [hob] at hlk
        exact ha.2 (k, v) (lookupA_mem hlk)
      · rw [hob] at hlk
        have hov : WFValue ov := hwb.2 (k, ov) (lookupA_mem hob)
        have hszov : sizeOf ov < n :=
          lt_of_lt_of_le (sizeOf_val_lt (lookupA_mem hob)) hb
        rcases hoa : lookupA a k with _ | bv
        · rw [hoa] at hlk
          exact Option.some.inj hlk ▸ hov
        · rw [hoa] at hlk
          have hbv : WFValue bv := ha.2 (k, bv) (lookupA_mem hoa)
          exact Option.some.inj hlk ▸
            (ih (sizeOf ov) hszov).1 bv ov le_rfl hbv hov

/-- Merging two well-formed documents yields a well-formed document. -/
lemma merge_WF {a b : Entries} (ha : WFEntries a) (hb : WFEntries b) :
    WFEntries (merge a b) :=
  (merge_WF_aux (sizeOf b)).2 a b le_rfl ha hb

lemma merge_self_aux : ∀ n : Nat,
    (∀ v : ConfigValue, sizeOf v ≤ n → WFValue v → mergeIfDicts v v = v) ∧
    (∀ d : Entries, sizeOf d ≤ n → WFEntries d → merge d d = d) := by
  intro n
  induction n using Nat.strong_induction_on with
  | _ n ih =>
    constructor
    · intro v hv hwv
      rcases mergeIfDicts_cases v v with h | ⟨dx, dy, hx, hy, h⟩
      · exact h
      · obtain rfl : dx = dy := by
          rw [hx] at hy; exact (ConfigValue.vDict.injEq .. ▸ hy).symm ▸ rfl
        rw [h, hx]
        have hsz : sizeOf dx < n := by
          have := sizeOf_vDict dx ▸ hx ▸ hv; omega
        rw [(ih (sizeOf dx) hsz).2 dx le_rfl (hx ▸ hwv).dict_elim]
    · intro d hd hwd
      refine assoc_ext (merge d d) d ?_ (nodup_keysA_merge d d hwd.1 hwd.1) ?_
      · rw [keysA_merge d d hwd.1, List.filter_eq_nil.mpr, List.append_nil]
        intro x hx
        simp [hx]
      · intro k
        rw [lookupA_merge d d hwd.1 k]
        rcases hlk : lookupA d k with _ | v
        · rfl
        · have hwv : WFValue v := hwd.2 (k, v) (lookupA_mem hlk)
          have hsz : sizeOf v < n :=
            lt_of_lt_of_le (sizeOf_val_lt (lookupA_mem hlk)) hd
          show some (mergeIfDicts v v) = some v
          rw [(ih (sizeOf v) hsz).1 v le_rfl hwv]

/-- A well-formed value absorbed into itself: `mergeIfDicts v v = v`. -/
lemma mergeIfDicts_self {v : ConfigValue} (h : WFValue v) : mergeIfDicts v v = v :=
  (merge_self_aux (sizeOf v)).1 v le_rfl h

/-- Merging a well-formed document with itself is the identity. -/
lemma merge_self {d : Entries} (hd : WFEntries d) : merge d d = d :=
  (merge_self_aux (sizeOf d)).2 d le_rfl hd

lemma merge_absorb_aux : ∀ n : Nat,
    (∀ x y : ConfigValue, sizeOf y ≤ n → WFValue x → WFValue y →
      mergeIfDicts x (mergeIfDicts x y) = mergeIfDicts x y) ∧
    (∀ a b : Entries, sizeOf b ≤ n → WFEntries a → WFEntries b →
      merge a (merge a b) = merge a b) := by
  intro n
  induction n using Nat.strong_induction_on with
  | _ n ih =>
    constructor
    · intro x y hy hx hwy
      rcases mergeIfDicts_cases x y with h | ⟨dx, dy, rfl, rfl, h⟩
      · rw [h]; exact h
      · rw [h]
        have hsz : sizeOf dy < n := by
          have := sizeOf_vDict dy ▸ hy; omega
        have habs := (ih (sizeOf dy) hsz).2 dx dy le_rfl hx.dict_elim hwy.dict_elim
        calc mergeIfDicts (.vDict dx) (.vDict (merge dx dy))
            = ConfigValue.vDict (merge dx (merge dx dy)) := by simp [mergeIfDicts]
          _ = ConfigValue.vDict (merge dx dy) := by rw [habs]
    · intro a b hb ha hwb
      have hndm : (keysA (merge a b)).Nodup := nodup_keysA_merge a b ha.1 hwb.1
      refine assoc_ext (merge a (merge a b)) (merge a b) ?_
        (nodup_keysA_merge a (merge a b) ha.1 hndm) ?_
      · rw [keysA_merge a (merge a b) hndm, keysA_merge a b hwb.1,
          List.filter_append, List.filter_eq_nil.mpr (fun x hx => by simp [hx]),
          List.nil_append, List.filter_filter]
        congr 1
        refine List.filter_congr fun x hx => ?_
        cases h : decide (x ∉ keysA a) <;> simp
      · intro k
        rw [lookupA_merge a (merge a b) hndm k, lookupA_merge a b hwb.1 k]
        rcases hob : lookupA b k with _ | ov
        · rcases hoa : lookupA a k with _ | bv
          · simp
          · have hwbv : WFValue bv := ha.2 (k, bv) (lookupA_mem hoa)
            show some (mergeIfDicts bv bv) = some bv
            rw [mergeIfDicts_self hwbv]
        · rcases hoa : lookupA a k with _ | bv
          · simp
          · have hwbv : WFValue bv := ha.2 (k, bv) (lookupA_mem hoa)
            have hwov : WFValue ov := hwb.2 (k, ov) (lookupA_mem hob)
            have hsz : sizeOf ov < n :=
              lt_of_lt_of_le (sizeOf_val_lt (lookupA_mem hob)) hb
            show some (mergeIfDicts bv (mergeIfDicts bv ov)) =
              some (mergeIfDicts bv ov)
            rw [(ih (sizeOf ov) hsz).1 bv ov le_rfl hwbv hwov]

/-- Re-applying an override is a no-op: `merge a (merge a b) = merge a b`
for well-formed documents. -/
lemma merge_absorb {a b : Entries} (ha : WFEntries a) (hb : WFEntries b) :
    merge a (merge a b) = merge a b :=
  (merge_absorb_aux (sizeOf b)).2 a b le_rfl ha hb

/-- C6: for a string leaf containing a placeholder `${NAME}` (`NAME` non-empty
and brace-free, no other `$` in the string): if `NAME` is set in the
environment the placeholder is replaced by its value and the result is
re-typed by `retype` (digits → int, digits-with-dot → float, true/false →
bool, null → None, otherwise string); if `NAME` is unset the original literal
text including the `${...}` syntax is returned unchanged and no error is
raised. -/
theorem c6_env_var_substitution (env : List (List Char × List Char))
    (a name b : List Char) (h1 : '$' ∉ a) (h2 : name ≠ []) (h3 : '}' ∉ name)
    (h4 : '$' ∉ b) :
    (lookupA env name = none →
      resolve_env_var_string env (a ++ '$' :: '{' :: (name ++ '}' :: b)) =
        .vStr (a ++ '$' :: '{' :: (name ++ '}' :: b))) ∧
    (∀ v, lookupA env name = some v →
      resolve_env_var_string env (a ++ '$' :: '{' :: (name ++ '}' :: b)) =
        retype (a ++ v ++ b)) := by
  constructor
  · intro hnone
    simp only [resolve_env_var_string, phSplit_decomp a name b h1 h2 h3, hnone]
  · intro v hsome
    simp only [resolve_env_var_string, phSplit_decomp a name b h1 h2 h3, hsome,
      subPH_single a name b v h1 h2 h3 h4]

/-- Witness for C6: `${PORT}` with `PORT=8080` becomes the integer 8080;
with `PORT` unset the literal text survives; a float-looking, a boolean and
a null substitution are also exercised. -/
theorem c6_env_var_substitution_witness :
    resolve_env_var_string [("PORT".data, "8080".data)] "${PORT}".data =
      ConfigValue.vInt 8080 ∧
    resolve_env_var_string [("PORT".data, "8080".data)] "${HOST}".data =
      ConfigValue.vStr "${HOST}".data ∧
    resolve_env_var_string [("R".data, "1.5".data)] "${R}".data =
      ConfigValue.vFloat "1.5".data ∧
    resolve_env_var_string [("F".data, "True".data)] "${F}".data =
      ConfigValue.vBool true ∧
    resolve_env_var_string [("N".data, "null".data)] "${N}".data =
      ConfigValue.vNull := by
  refine ⟨?_, ?_, ?_, ?_, ?_⟩
  · exact ((c6_env_var_substitution [("PORT".data, "8080".data)] [] "PORT".data []
      (by decide) (by decide) (by decide) (by decide)).2 "8080".data (by decide)).trans rfl
  · exact ((c6_env_var_substitution [("PORT".data, "8080".data)] [] "HOST".data []
      (by decide) (by decide) (by decide) (by decide)).1 (by decide)).trans rfl
  · exact ((c6_env_var_substitution [("R".data, "1.5".data)] [] "R".data []
      (by decide) (by decide) (by decide) (by decide)).2 "1.5".data (by decide)).trans rfl
  · exact ((c6_env_var_substitution [("F".data, "True".data)] [] "F".data []
      (by decide) (by decide) (by decide) (by decide)).2 "True".data (by decide)).trans rfl
  · exact ((c6_env_var_substitution [("N".data, "null".data)] [] "N".data []
      (by decide) (by decide) (by decide) (by decide)).2 "null".data (by decide)).trans rfl

/-! ### `setA` lemmas -/

lemma keysA_setA {α β : Type} [DecidableEq α] (l : List (α × β)) (k : α) (v : β) :
    keysA (setA l k v) = if k ∈ keysA l then keysA l else keysA l ++ [k] := by
  induction l with
  | nil => simp [setA]
  | cons e rest ih =>
    obtain ⟨k', v'⟩ := e
    by_cases h : k' = k
    · subst h; simp [setA]
    · rw [setA, if_neg h]
      by_cases hm : k ∈ keysA rest
      · simp [ih, hm, Ne.symm h]
      · simp [ih, hm, Ne.symm h]

lemma lookupA_setA_self {α β : Type} [DecidableEq α] (l : List (α × β)) (k : α) (v : β) :
    lookupA (setA l k v) k = some v := by
  induction l with
  | nil => simp [setA, lookupA_cons]
  | cons e rest ih =>
    obtain ⟨k', v'⟩ := e
    by_cases h : k' = k
    · subst h; simp [setA, lookupA_cons]
    · rw [setA, if_neg h, lookupA_cons, if_neg h, ih]

lemma lookupA_setA_ne {α β : Type} [DecidableEq α] (l : List (α × β)) (k : α) (v : β)
    (k' : α) (h : k' ≠ k) : lookupA (setA l k v) k' = lookupA l k' := by
  induction l with
  | nil => rw [setA, lookupA_cons, if_neg (fun hh => h hh.symm), lookupA_nil]
  | cons e rest ih =>
    obtain ⟨k₀, v₀⟩ := e
    by_cases h0 : k₀ = k
    · subst h0
      rw [setA, if_pos rfl, lookupA_cons, lookupA_cons, if_neg (fun hh => h hh.symm),
        if_neg (fun hh => h hh.symm)]
    · rw [setA, if_neg h0, lookupA_cons, lookupA_cons, ih]

lemma lookupA_mem_keys {α β : Type} [DecidableEq α] {l : List (α × β)} {k : α}
    (h : k ∈ keysA l) : ∃ v, lookupA l k = some v := by
  rcases hl : lookupA l k with _ | v
  · exact absurd ((lookupA_eq_none l k).mp hl) (not_not.mpr h)
  · exact ⟨v, rfl⟩

lemma lookupA_map_const {α β : Type} [DecidableEq α] (l : List α) (c : β) (k : α)
    (h : k ∈ l) : lookupA (l.map (·, c)) k = some c := by
  induction l with
  | nil => exact absurd h (List.not_mem_nil k)
  | cons a rest ih =>
    by_cases ha : a = k
    · subst ha; simp [lookupA_cons]
    · rcases List.mem_cons.mp h with rfl | hm
      · exact absurd rfl ha
      · simpa [lookupA_cons, ha] using ih hm

/-! ### Expansion-loop lemmas (claims C1, C2) -/

lemma filter_length_split {α : Type} (p : α → Bool) (l : List α) :
    (l.filter p).length + (l.filter fun x => !p x).length = l.length := by
  induction l with
  | nil => rfl
  | cons a rest ih =>
    by_cases h : p a
    · simp [List.filter_cons, h, ← ih]; omega
    · simp [List.filter_cons, h, ← ih]; omega

lemma expandMeasure_step (g : DepGraph) (all : List PName) (current : PName)
    (rest deps : List PName) (hdep : (current, deps) ∈ g) :
    expandMeasure g (all ++ deps.filter fun d => decide (d ∉ all))
        (rest ++ deps.filter fun d => decide (d ∉ all)) + 1 ≤
      expandMeasure g all (current :: rest) := by
  set nw := deps.filter fun d => decide (d ∉ all) with hnw
  set J := joinDeps g with hJ
  set A := J.filter fun x => decide (x ∉ all) with hA
  have hnwA : List.Sublist nw A := by
    have h2 : List.Sublist deps J :=
      List.sublist_join_of_mem (List.mem_map.mpr ⟨(current, deps), hdep, rfl⟩)
    exact hnw ▸ hA ▸ h2.filter _
  have hC' : (J.filter fun x => decide (x ∉ all ++ nw)).length =
      (A.filter fun x => !decide (x ∈ nw)).length := by
    rw [hA, List.filter_filter]
    congr 1
    refine List.filter_congr fun x _ => ?_
    by_cases h1 : x ∈ all <;> by_cases h2 : x ∈ nw <;>
      simp [h1, h2, List.mem_append]
  have hsplit := filter_length_split (fun x => decide (x ∈ nw)) A
  have hge : nw.length ≤ (A.filter fun x => decide (x ∈ nw)).length := by
    have heq : nw.filter (fun x => decide (x ∈ nw)) = nw :=
      List.filter_eq_self.mpr fun a ha => by simpa using ha
    have := (hnwA.filter fun x => decide (x ∈ nw)).length_le
    rwa [heq] at this
  have hkey : (J.filter fun x => decide (x ∉ all ++ nw)).length + nw.length ≤ A.length := by
    rw [hC']; omega
  simp only [expandMeasure, List.length_append, List.length_cons, ← hJ, ← hnw, ← hA]
  omega

lemma expandLoop_spec (g : DepGraph) (names : List PName) (hg : WFGraph g) :
    ∀ (fuel : Nat) (all tp : List PName),
      expandMeasure g all tp ≤ fuel →
      all.Nodup →
      (∀ x ∈ tp, x ∈ all) →
      (∀ x ∈ all, Reaches g names x) →
      (∀ x ∈ all, x ∈ tp ∨ ∃ deps, lookupA g x = some deps ∧ ∀ d ∈ deps, d ∈ all) →
      (∀ x ∈ names, x ∈ all) →
      match expandLoop g fuel all tp with
      | .ok res => res.Nodup ∧ (∀ x ∈ names, x ∈ res) ∧
          (∀ x ∈ res, ∃ deps, lookupA g x = some deps ∧ ∀ d ∈ deps, d ∈ res) ∧
          (∀ x ∈ res, Reaches g names x)
      | .error e => ∃ u, Reaches g names u ∧ lookupA g u = none ∧
          e = "Unknown plugin: ".data ++ u := by
  intro fuel
  induction fuel with
  | zero =>
    intro all tp hm hnd hsub hreach hclosed hnames
    cases tp with
    | nil =>
      simp only [expandLoop]
      refine ⟨hnd, hnames, ?_, hreach⟩
      intro x hx
      rcases hclosed x hx with h | h
      · exact absurd h (List.not_mem_nil x)
      · exact h
    | cons c cs =>
      exfalso
      simp only [expandMeasure, List.length_cons] at hm
      omega
  | succ n ih =>
    intro all tp hm hnd hsub hreach hclosed hnames
    cases tp with
    | nil =>
      simp only [expandLoop]
      refine ⟨hnd, hnames, ?_, hreach⟩
      intro x hx
      rcases hclosed x hx with h | h
      · exact absurd h (List.not_mem_nil x)
      · exact h
    | cons current rest =>
      have hcur_all : current ∈ all := hsub current (List.mem_cons_self _ _)
      cases hl : lookupA g current with
      | none =>
        simp only [expandLoop, hl]
        exact ⟨current, hreach current hcur_all, hl, rfl⟩
      | some deps =>
        have hdep : (current, deps) ∈ g := lookupA_mem hl
        have hdnd : deps.Nodup := hg.2 (current, deps) hdep
        simp only [expandLoop, hl]
        refine ih (all ++ deps.filter fun d => decide (d ∉ all))
          (rest ++ deps.filter fun d => decide (d ∉ all)) ?_ ?_ ?_ ?_ ?_ ?_
        · have := expandMeasure_step g all current rest deps hdep
          omega
        · refine List.Nodup.append hnd (hdnd.filter _) ?_
          intro x hx hx'
          have := List.of_mem_filter hx'
          simp only [decide_eq_true_eq] at this
          exact this hx
        · intro x hx
          rcases List.mem_append.mp hx with h | h
          · exact List.mem_append_left _ (hsub x (List.mem_cons_of_mem _ h))
          · exact List.mem_append_right _ h
        · intro x hx
          rcases List.mem_append.mp hx with h | h
          · exact hreach x h
          · exact Reaches.step (hreach current hcur_all) hl (List.mem_of_mem_filter h)
        · intro x hx
          rcases List.mem_append.mp hx with h | h
          · rcases hclosed x h with htp | hcl
            · rcases List.mem_cons.mp htp with rfl | hr
              · right
                refine ⟨deps, hl, fun d hd => ?_⟩
                by_cases hda : d ∈ all
                · exact List.mem_append_left _ hda
                · exact List.mem_append_right _
                    (List.mem_filter.mpr ⟨hd, by simpa using hda⟩)
              · exact Or.inl (List.mem_append_left _ hr)
            · rcases hcl with ⟨deps', hld, hsubd⟩
              exact Or.inr ⟨deps', hld, fun d hd => List.mem_append_left _ (hsubd d hd)⟩
          · exact Or.inl (List.mem_append_right _ h)
        · intro x hx
          exact List.mem_append_left _ (hnames x hx)

lemma reaches_mem_of_closed {g : DepGraph} {names res : List PName}
    (hnames : ∀ x ∈ names, x ∈ res)
    (hclosed : ∀ x ∈ res, ∃ deps, lookupA g x = some deps ∧ ∀ d ∈ deps, d ∈ res) :
    ∀ x, Reaches g names x → x ∈ res := by
  intro x hx
  induction hx with
  | base h => exact hnames _ h
  | step hy hl hd ih =>
    rcases hclosed _ ih with ⟨deps', hld, hsubd⟩
    rw [hld] at hl
    exact hsubd _ (Option.some.inj hl ▸ hd)

/-! ### Kahn graph-construction lemmas (claim C1) -/

lemma addEdges_spec (plugins : List PName) (plugin : PName) :
    ∀ (ds : List PName) (indeg : List (PName × Int)) (adj : List (PName × List PName)),
      ds.Nodup → plugin ∈ keysA indeg → keysA adj = plugins →
      keysA (addEdges plugins plugin indeg adj ds).1 = keysA indeg ∧
      keysA (addEdges plugins plugin indeg adj ds).2 = keysA adj ∧
      (∀ x, x ≠ plugin →
        lookupA (addEdges plugins plugin indeg adj ds).1 x = lookupA indeg x) ∧
      (lookupA (addEdges plugins plugin indeg adj ds).1 plugin =
        some ((lookupA indeg plugin).getD 0 +
          ((ds.filter fun d => decide (d ∈ plugins)).length : Int))) ∧
      (∀ d, d ∈ ds → d ∈ plugins →
        lookupA (addEdges plugins plugin indeg adj ds).2 d =
          some ((lookupA adj d).getD [] ++ [plugin])) ∧
      (∀ d, d ∉ ds ∨ d ∉ plugins →
        lookupA (addEdges plugins plugin indeg adj ds).2 d = lookupA adj d) := by
  intro ds
  induction ds with
  | nil =>
    intro indeg adj _ hpk _
    obtain ⟨v, hv⟩ := lookupA_mem_keys hpk
    refine ⟨rfl, rfl, fun _ _ => rfl, ?_, fun d hd _ => absurd hd (List.not_mem_nil d),
      fun _ _ => rfl⟩
    rw [addEdges, hv]
    simp
  | cons d ds ih =>
    intro indeg adj hnd hpk hak
    simp only [List.nodup_cons] at hnd
    by_cases hdp : d ∈ plugins
    · rw [addEdges, if_pos hdp]
      set indeg1 := setA indeg plugin ((lookupA indeg plugin).getD 0 + 1) with hi1
      set adj1 := setA adj d ((lookupA adj d).getD [] ++ [plugin]) with ha1
      have hk1 : keysA indeg1 = keysA indeg := by
        rw [hi1, keysA_setA, if_pos hpk]
      have hk2 : keysA adj1 = keysA adj := by
        rw [ha1, keysA_setA, if_pos (hak ▸ hdp)]
      obtain ⟨e1, e2, e3, e4, e5, e6⟩ :=
        ih indeg1 adj1 hnd.2 (hk1 ▸ hpk) (hk2.trans hak)
      obtain ⟨v, hv⟩ := lookupA_mem_keys hpk
      refine ⟨e1.trans hk1, e2.trans hk2, ?_, ?_, ?_, ?_⟩
      · intro x hx
        rw [e3 x hx, hi1, lookupA_setA_ne _ _ _ _ hx]
      · rw [e4, hi1, lookupA_setA_self, hv]
        simp only [Option.getD_some, List.filter_cons, decide_eq_true_eq, if_pos hdp,
          List.length_cons]
        congr 1
        push_cast
        ring
      · intro d' hd' hdp'
        rcases List.mem_cons.mp hd' with rfl | hmem
        · rw [e6 d' (Or.inl hnd.1), ha1, lookupA_setA_self]
        · rw [e5 d' hmem hdp']
          by_cases hdd : d' = d
          · subst hdd; exact absurd hmem hnd.1
          · rw [ha1, lookupA_setA_ne _ _ _ _ hdd]
      · intro d' hd'
        have hne : d' ∉ (d :: ds) ∨ d' ∉ plugins := hd'
        have hrec : d' ∉ ds ∨ d' ∉ plugins := by
          rcases hne with h | h
          · exact Or.inl fun hh => h (List.mem_cons_of_mem _ hh)
          · exact Or.inr h
        rw [e6 d' hrec]
        have hdd : d' ≠ d := by
          rintro rfl
          rcases hne with h | h
          · exact h (List.mem_cons_self _ _)
          · exact h hdp
        rw [ha1, lookupA_setA_ne _ _ _ _ hdd]
    · rw [addEdges, if_neg hdp]
      obtain ⟨e1, e2, e3, e4, e5, e6⟩ := ih indeg adj hnd.2 hpk hak
      refine ⟨e1, e2, e3, ?_, ?_, ?_⟩
      · rw [e4]
        simp [List.filter_cons, hdp]
      · intro d' hd' hdp'
        rcases List.mem_cons.mp hd' with rfl | hmem
        · exact absurd hdp' hdp
        · exact e5 d' hmem hdp'
      · intro d' hd'
        refine e6 d' ?_
        rcases hd' with h | h
        · exact Or.inl fun hh => h (List.mem_cons_of_mem _ hh)
        · exact Or.inr h

lemma buildAdj_spec (g : DepGraph) (plugins : List PName) (hg : WFGraph g) :
    ∀ (todo : List PName) (indeg : List (PName × Int)) (adj : List (PName × List PName))
      (I : PName → Int) (A : PName → List PName),
      todo.Nodup → (∀ x ∈ todo, x ∈ plugins) →
      keysA indeg = plugins → keysA adj = plugins →
      (∀ p ∈ plugins, lookupA indeg p = some (I p)) →
      (∀ p ∈ plugins, lookupA adj p = some (A p)) →
      keysA (buildAdj g plugins indeg adj todo).1 = plugins ∧
      keysA (buildAdj g plugins indeg adj todo).2 = plugins ∧
      (∀ p ∈ plugins, lookupA (buildAdj g plugins indeg adj todo).1 p =
        some (I p + if p ∈ todo then ((rdepsL g plugins p).length : Int) else 0)) ∧
      (∀ d ∈ plugins, lookupA (buildAdj g plugins indeg adj todo).2 d =
        some (A d ++ todo.filter fun p => decide (d ∈ rdepsL g plugins p))) := by
  intro todo
  induction todo with
  | nil =>
    intro indeg adj I A _ _ hik hak hilk halk
    rw [buildAdj]
    refine ⟨hik, hak, fun p hp => ?_, fun d hd => ?_⟩
    · simp [hilk p hp]
    · simp [halk d hd]
  | cons p ps ih =>
    intro indeg adj I A hnd hsubp hik hak hilk halk
    simp only [List.nodup_cons] at hnd
    have hp_plugins : p ∈ plugins := hsubp p (List.mem_cons_self _ _)
    cases hgl : lookupA g p with
    | some deps =>
      rw [buildAdj, hgl]
      have hdnd : deps.Nodup := hg.2 (p, deps) (lookupA_mem hgl)
      obtain ⟨e1, e2, e3, e4, e5, e6⟩ := addEdges_spec plugins p deps indeg adj hdnd
        (hik ▸ hp_plugins) hak
      have hrd : rdepsL g plugins p = deps.filter fun d => decide (d ∈ plugins) := by
        rw [rdepsL, hgl]
      have hrd_iff : ∀ d, d ∈ plugins → (d ∈ rdepsL g plugins p ↔ d ∈ deps) := by
        intro d hd
        rw [hrd]
        simp [List.mem_filter, hd]
      obtain ⟨f1, f2, f3, f4⟩ := ih (addEdges plugins p indeg adj deps).1
        (addEdges plugins p indeg adj deps).2
        (fun x => if x = p then I x + ((rdepsL g plugins x).length : Int) else I x)
        (fun d => if d ∈ rdepsL g plugins p then A d ++ [p] else A d)
        hnd.2 (fun x hx => hsubp x (List.mem_cons_of_mem _ hx))
        (e1.trans hik) (e2.trans hak)
        (by
          intro q hq
          by_cases hqp : q = p
          · subst hqp
            rw [e4, hilk q hq]
            simp [hrd]
          · rw [e3 q hqp, hilk q hq]
            simp [hqp])
        (by
          intro d hd
          by_cases hdr : d ∈ rdepsL g plugins p
          · have hdd : d ∈ deps := (hrd_iff d hd).mp hdr
            rw [e5 d hdd hd, halk d hd]
            simp [hdr]
          · have hdd : d ∉ deps := fun hh => hdr ((hrd_iff d hd).mpr hh)
            rw [e6 d (Or.inl hdd), halk d hd]
            simp [hdr])
      refine ⟨f1, f2, ?_, ?_⟩
      · intro q hq
        rw [f3 q hq]
        by_cases hqp : q = p
        · subst hqp
          rw [if_pos rfl, if_neg hnd.1, if_pos (List.mem_cons_self _ _), add_zero]
        · rw [if_neg hqp]
          by_cases hqs : q ∈ ps
          · rw [if_pos hqs, if_pos (List.mem_cons_of_mem _ hqs)]
          · rw [if_neg hqs, if_neg (by simp [List.mem_cons, hqp, hqs])]
      · intro d hd
        rw [f4 d hd, List.filter_cons]
        by_cases hdr : d ∈ rdepsL g plugins p
        · rw [if_pos hdr, if_pos (by simpa using hdr)]
          simp [List.append_assoc]
        · rw [if_neg hdr, if_neg (by simpa using hdr)]
    | none =>
      rw [buildAdj, hgl]
      have hrdnil : rdepsL g plugins p = [] := by rw [rdepsL, hgl]
      obtain ⟨f1, f2, f3, f4⟩ := ih indeg adj I A hnd.2
        (fun x hx => hsubp x (List.mem_cons_of_mem _ hx)) hik hak hilk halk
      refine ⟨f1, f2, ?_, ?_⟩
      · intro q hq
        rw [f3 q hq]
        by_cases hqp : q = p
        · subst hqp
          rw [hrdnil]
          simp
        · by_cases hqs : q ∈ ps
          · rw [if_pos hqs, if_pos (List.mem_cons_of_mem _ hqs)]
          · rw [if_neg hqs, if_neg (by simp [List.mem_cons, hqp, hqs])]
      · intro d hd
        rw [f4 d hd, List.filter_cons, if_neg (by simp [hrdnil])]

lemma rdepsL_nodup {g : DepGraph} (hg : WFGraph g) (plugins : List PName) (p : PName) :
    (rdepsL g plugins p).Nodup := by
  rw [rdepsL]
  cases hl : lookupA g p with
  | none => exact List.nodup_nil
  | some deps => exact (hg.2 (p, deps) (lookupA_mem hl)).filter _

lemma adjSpec_nodup {plugins : List PName} (hpnd : plugins.Nodup) (g : DepGraph)
    (d : PName) : (adjSpec g plugins d).Nodup := hpnd.filter _

lemma mem_adjSpec {g : DepGraph} {plugins : List PName} {d p : PName} :
    p ∈ adjSpec g plugins d ↔ p ∈ plugins ∧ d ∈ rdepsL g plugins p := by
  rw [adjSpec, List.mem_filter]
  simp

lemma processNeighbors_spec :
    ∀ (nbs : List PName) (indeg : List (PName × Int)),
      nbs.Nodup → (∀ x ∈ nbs, x ∈ keysA indeg) →
      keysA (processNeighbors indeg nbs).1 = keysA indeg ∧
      (∀ x, lookupA (processNeighbors indeg nbs).1 x =
        if x ∈ nbs then (lookupA indeg x).map (· - 1) else lookupA indeg x) ∧
      (processNeighbors indeg nbs).2 =
        nbs.filter fun x => decide ((lookupA indeg x).getD 0 = 1) := by
  intro nbs
  induction nbs with
  | nil =>
    intro indeg _ _
    refine ⟨rfl, fun x => ?_, rfl⟩
    simp [processNeighbors]
  | cons nb rest ih =>
    intro indeg hnd hsubk
    simp only [List.nodup_cons] at hnd
    obtain ⟨v, hv⟩ := lookupA_mem_keys (hsubk nb (List.mem_cons_self _ _))
    have hkeys1 : keysA (setA indeg nb ((lookupA indeg nb).getD 0 - 1)) = keysA indeg := by
      rw [keysA_setA, if_pos (hsubk nb (List.mem_cons_self _ _))]
    obtain ⟨f1, f2, f3⟩ := ih (setA indeg nb ((lookupA indeg nb).getD 0 - 1)) hnd.2
      (fun x hx => hkeys1 ▸ hsubk x (List.mem_cons_of_mem _ hx))
    refine ⟨?_, ?_, ?_⟩
    · rw [processNeighbors]
      exact f1.trans hkeys1
    · intro x
      rw [processNeighbors]
      by_cases hx : x = nb
      · subst hx
        rw [f2 x, if_neg hnd.1, lookupA_setA_self, if_pos (List.mem_cons_self _ _), hv]
        simp
      · rw [f2 x, lookupA_setA_ne _ _ _ _ hx]
        by_cases hxr : x ∈ rest
        · rw [if_pos hxr, if_pos (List.mem_cons_of_mem _ hxr)]
        · rw [if_neg hxr, if_neg (by simp [List.mem_cons, hx, hxr])]
    · rw [processNeighbors]
      simp only []
      rw [f3, List.filter_cons]
      have hcond : (decide ((lookupA indeg nb).getD 0 = 1)) =
          (if (lookupA indeg nb).getD 0 - 1 = 0 then true else false) := by
        rw [hv]
        simp only [Option.getD_some]
        by_cases h1 : v = 1
        · simp [h1]
        · rw [if_neg (by omega)]
          simp [h1]
      have hrest : List.filter (fun x => decide ((lookupA
          (setA indeg nb ((lookupA indeg nb).getD 0 - 1)) x).getD 0 = 1)) rest =
          List.filter (fun x => decide ((lookupA indeg x).getD 0 = 1)) rest := by
        refine List.filter_congr fun x hx => ?_
        rw [lookupA_setA_ne _ _ _ _ (fun hh => hnd.1 (by rw [← hh]; exact hx))]
      rw [hrest]
      by_cases hd : (lookupA indeg nb).getD 0 - 1 = 0
      · rw [if_pos hd, if_pos (by rw [hcond, if_pos hd])]
        rfl
      · rw [if_neg hd, if_neg (by rw [hcond, if_neg hd]; simp)]
        rfl

lemma idxOfA_cons_self (a : PName) (l : List PName) : idxOfA (a :: l) a = 0 := by
  rw [idxOfA, if_pos rfl]

lemma idxOfA_append_of_mem {x : PName} {l₁ : List PName} (l₂ : List PName)
    (h : x ∈ l₁) : idxOfA (l₁ ++ l₂) x = idxOfA l₁ x := by
  induction l₁ with
  | nil => exact absurd h (List.not_mem_nil x)
  | cons a l ih =>
    by_cases ha : a = x
    · rw [List.cons_append, idxOfA, if_pos ha, idxOfA, if_pos ha]
    · rcases List.mem_cons.mp h with rfl | hm
      · exact absurd rfl ha
      · rw [List.cons_append, idxOfA, if_neg ha, idxOfA, if_neg ha, ih hm]

lemma idxOfA_append_of_not_mem {x : PName} {l₁ : List PName} (l₂ : List PName)
    (h : x ∉ l₁) : idxOfA (l₁ ++ l₂) x = l₁.length + idxOfA l₂ x := by
  induction l₁ with
  | nil => simp
  | cons a l ih =>
    have ha : a ≠ x := fun hh => h (hh ▸ List.mem_cons_self _ _)
    rw [List.cons_append, idxOfA, if_neg ha, ih fun hh => h (List.mem_cons_of_mem _ hh),
      List.length_cons]
    omega

lemma idxOfA_lt_length {x : PName} {l : List PName} (h : x ∈ l) :
    idxOfA l x < l.length := by
  induction l with
  | nil => exact absurd h (List.not_mem_nil x)
  | cons a l ih =>
    by_cases ha : a = x
    · rw [idxOfA, if_pos ha, List.length_cons]; omega
    · rcases List.mem_cons.mp h with rfl | hm
      · exact absurd rfl ha
      · rw [idxOfA, if_neg ha, List.length_cons]
        exact Nat.succ_lt_succ (ih hm)

lemma countIn_le_length (l res : List PName) : countIn l res ≤ l.length :=
  (List.filter_sublist l).length_le

lemma countIn_of_all_mem {l res : List PName} (h : ∀ x ∈ l, x ∈ res) :
    countIn l res = l.length := by
  rw [countIn, List.filter_eq_self.mpr fun a ha => by simpa using h a ha]

lemma all_mem_of_countIn_eq {l res : List PName} (h : countIn l res = l.length) :
    ∀ x ∈ l, x ∈ res := by
  have := (List.filter_sublist (l := l)
    (p := fun x => decide (x ∈ res))).eq_of_length h
  intro x hx
  have := List.of_mem_filter (p := fun x => decide (x ∈ res)) (this ▸ hx)
  simpa using this

lemma countIn_append_single {l res : List PName} (c : PName) (hc : c ∉ res)
    (hl : l.Nodup) :
    countIn l (res ++ [c]) = countIn l res + if c ∈ l then 1 else 0 := by
  induction l with
  | nil => simp [countIn]
  | cons a l' ih =>
    simp only [List.nodup_cons] at hl
    have IH := ih hl.2
    simp only [countIn, List.filter_cons, decide_eq_true_eq] at IH ⊢
    by_cases hac : a = c
    · subst hac
      rw [if_pos (List.mem_append_right _ (List.mem_cons_self _ _)), if_neg hc,
        if_pos (List.mem_cons_self a l'), if_neg hl.1] at *
      simp only [List.length_cons]
      omega
    · have hca : ¬ c = a := fun h => hac h.symm
      rw [if_congr (show (a ∈ res ++ [c]) ↔ a ∈ res by simp [List.mem_append, hac]) rfl rfl,
        if_congr (show (c ∈ a :: l') ↔ c ∈ l' by simp [List.mem_cons, hca]) rfl rfl]
      by_cases har : a ∈ res
      · rw [if_pos har, if_pos har]
        simp only [List.length_cons]
        omega
      · rw [if_neg har, if_neg har]
        omega

lemma kahnLoop_spec (g : DepGraph) (plugins : List PName)
    (hg : WFGraph g) (hpnd : plugins.Nodup)
    (adj : List (PName × List PName))
    (hadj : ∀ p ∈ plugins, lookupA adj p = some (adjSpec g plugins p)) :
    ∀ (fuel : Nat) (queue : List PName) (indeg : List (PName × Int))
      (result : List PName),
      plugins.length ≤ fuel + result.length →
      (result ++ queue).Nodup →
      (∀ x ∈ result ++ queue, x ∈ plugins) →
      keysA indeg = plugins →
      (∀ p ∈ plugins, lookupA indeg p =
        some (((rdepsL g plugins p).length : Int) -
          (countIn (rdepsL g plugins p) result : Int))) →
      (∀ q ∈ queue, ∀ d ∈ rdepsL g plugins q, d ∈ result) →
      (∀ p ∈ result, ∀ d ∈ rdepsL g plugins p,
        d ∈ result ∧ idxOfA result d < idxOfA result p) →
      (kahnLoop adj fuel queue indeg result).Nodup ∧
      (∀ x ∈ kahnLoop adj fuel queue indeg result, x ∈ plugins) ∧
      (∀ p ∈ kahnLoop adj fuel queue indeg result, ∀ d ∈ rdepsL g plugins p,
        d ∈ kahnLoop adj fuel queue indeg result ∧
        idxOfA (kahnLoop adj fuel queue indeg result) d <
          idxOfA (kahnLoop adj fuel queue indeg result) p) ∧
      (∀ fuel', fuel ≤ fuel' →
        kahnLoop adj fuel' queue indeg result = kahnLoop adj fuel queue indeg result) := by
  intro fuel
  induction fuel with
  | zero =>
    intro queue indeg result hfuel hnd hsub _ _ _ hvalid
    have hq_nil : queue = [] := by
      have hle : (result ++ queue).length ≤ plugins.length :=
        (List.subperm_of_subset hnd hsub).length_le
      rw [List.length_append] at hle
      cases queue with
      | nil => rfl
      | cons c cs => simp at hle; omega
    subst hq_nil
    have hres : ∀ f, kahnLoop adj f [] indeg result = result := by
      intro f
      cases f with
      | zero => rw [kahnLoop]
      | succ m => rw [kahnLoop]
    rw [hres 0]
    refine ⟨(List.nodup_append.mp hnd).1, fun x hx => hsub x (List.mem_append_left _ hx),
      hvalid, fun f _ => (hres f).trans (hres 0).symm⟩
  | succ n ih =>
    intro queue indeg result hfuel hnd hsub hkeys hindeg hqueue hvalid
    cases queue with
    | nil =>
      have hres : ∀ f, kahnLoop adj f [] indeg result = result := by
        intro f
        cases f with
        | zero => rw [kahnLoop]
        | succ m => rw [kahnLoop]
      rw [hres (n + 1)]
      refine ⟨(List.nodup_append.mp hnd).1, fun x hx => hsub x (List.mem_append_left _ hx),
        hvalid, fun f _ => (hres f).trans (hres (n + 1)).symm⟩
    | cons current rest =>
      have hcur : current ∈ plugins :=
        hsub current (List.mem_append_right _ (List.mem_cons_self _ _))
      have hnbs_eq : (lookupA adj current).getD [] = adjSpec g plugins current := by
        rw [hadj current hcur]; rfl
      have hnbs_nd : (adjSpec g plugins current).Nodup := adjSpec_nodup hpnd g current
      have hnbs_k : ∀ x ∈ adjSpec g plugins current, x ∈ keysA indeg := by
        intro x hx
        exact hkeys ▸ (mem_adjSpec.mp hx).1
      obtain ⟨p1, p2, p3⟩ := processNeighbors_spec (adjSpec g plugins current) indeg
        hnbs_nd hnbs_k
      -- basic structural facts
      have hnd' : (result ++ [current] ++ rest).Nodup := by
        rwa [List.append_assoc, List.singleton_append]
      have hcur_not_res : current ∉ result := by
        have := List.nodup_append.mp hnd
        exact fun hh => this.2.2 hh (List.mem_cons_self _ _)
      have hq_current : ∀ d ∈ rdepsL g plugins current, d ∈ result :=
        hqueue current (List.mem_cons_self _ _)
      -- characterize the fresh queue entries
      have hnewQ : ∀ x, x ∈ (processNeighbors indeg (adjSpec g plugins current)).2 →
          x ∈ adjSpec g plugins current ∧
          ((rdepsL g plugins x).length : Int) - (countIn (rdepsL g plugins x) result : Int)
            = 1 := by
        intro x hx
        rw [p3] at hx
        have hm := List.mem_of_mem_filter hx
        have hcond := List.of_mem_filter hx
        simp only [decide_eq_true_eq] at hcond
        have hxp : x ∈ plugins := (mem_adjSpec.mp hm).1
        rw [hindeg x hxp] at hcond
        simpa using ⟨hm, hcond⟩
      have hprocessed_zero : ∀ x, x ∈ plugins →
          (∀ d ∈ rdepsL g plugins x, d ∈ result) →
          ((rdepsL g plugins x).length : Int) - (countIn (rdepsL g plugins x) result : Int)
            = 0 := by
        intro x _ hall
        rw [countIn_of_all_mem hall]
        omega
      have hfresh : ∀ x, x ∈ (processNeighbors indeg (adjSpec g plugins current)).2 →
          x ∉ result ++ [current] ++ rest := by
        intro x hx hmem
        obtain ⟨hm, hone⟩ := hnewQ x hx
        have hxp : x ∈ plugins := (mem_adjSpec.mp hm).1
        rcases List.mem_append.mp hmem with hmem' | hrest
        · rcases List.mem_append.mp hmem' with hres | hself
          · have := hprocessed_zero x hxp fun d hd => (hvalid x hres d hd).1
            omega
          · have hxc : x = current := by simpa using hself
            subst hxc
            have := hprocessed_zero x hxp hq_current
            omega
        · have := hprocessed_zero x hxp fun d hd => hqueue x (List.mem_cons_of_mem _ hrest) d hd
          omega
      -- the one-step unfolding
      have hstep : kahnLoop adj (n + 1) (current :: rest) indeg result =
          kahnLoop adj n (rest ++ (processNeighbors indeg (adjSpec g plugins current)).2)
            (processNeighbors indeg (adjSpec g plugins current)).1
            (result ++ [current]) := by
        rw [kahnLoop, hnbs_eq]
      -- invariants for the recursive state
      have inv_fuel : plugins.length ≤ n + (result ++ [current]).length := by
        rw [List.length_append]
        simp only [List.length_cons, List.length_nil]
        omega
      have inv_nd : ((result ++ [current]) ++
          (rest ++ (processNeighbors indeg (adjSpec g plugins current)).2)).Nodup := by
        rw [← List.append_assoc]
        refine List.Nodup.append hnd' ?_ ?_
        · rw [p3]; exact hnbs_nd.filter _
        · intro x hx hx'
          exact hfresh x hx' hx
      have inv_sub : ∀ x ∈ (result ++ [current]) ++
          (rest ++ (processNeighbors indeg (adjSpec g plugins current)).2), x ∈ plugins := by
        intro x hx
        rw [← List.append_assoc] at hx
        rcases List.mem_append.mp hx with h1 | h2
        · exact hsub x (by
            rw [List.append_assoc, List.singleton_append] at h1
            rcases List.mem_append.mp h1 with ha | hb
            · exact List.mem_append_left _ ha
            · exact List.mem_append_right _ hb)
        · exact (mem_adjSpec.mp (hnewQ x h2).1).1
      have inv_keys : keysA (processNeighbors indeg (adjSpec g plugins current)).1 =
          plugins := p1.trans hkeys
      have inv_indeg : ∀ p ∈ plugins,
          lookupA (processNeighbors indeg (adjSpec g plugins current)).1 p =
          some (((rdepsL g plugins p).length : Int) -
            (countIn (rdepsL g plugins p) (result ++ [current]) : Int)) := by
        intro p hp
        rw [p2 p, countIn_append_single current hcur_not_res (rdepsL_nodup hg plugins p)]
        by_cases hpn : p ∈ adjSpec g plugins current
        · have hcd : current ∈ rdepsL g plugins p := (mem_adjSpec.mp hpn).2
          rw [if_pos hpn, hindeg p hp, if_pos hcd]
          show some (((rdepsL g plugins p).length : Int) -
            (countIn (rdepsL g plugins p) result : Int) - 1) = _
          congr 1
          push_cast
          ring
        · have hcd : current ∉ rdepsL g plugins p := by
            intro hh
            exact hpn (mem_adjSpec.mpr ⟨hp, hh⟩)
          rw [if_neg hpn, hindeg p hp, if_neg hcd]
          simp
      have inv_queue : ∀ q ∈ rest ++ (processNeighbors indeg (adjSpec g plugins current)).2,
          ∀ d ∈ rdepsL g plugins q, d ∈ result ++ [current] := by
        intro q hq d hd
        rcases List.mem_append.mp hq with hqr | hqn
        · exact List.mem_append_left _ (hqueue q (List.mem_cons_of_mem _ hqr) d hd)
        · obtain ⟨hm, hone⟩ := hnewQ q hqn
          have hqp : q ∈ plugins := (mem_adjSpec.mp hm).1
          have hcd : current ∈ rdepsL g plugins q := (mem_adjSpec.mp hm).2
          have hcnt : countIn (rdepsL g plugins q) (result ++ [current]) =
              (rdepsL g plugins q).length := by
            rw [countIn_append_single current hcur_not_res (rdepsL_nodup hg plugins q),
              if_pos hcd]
            have hle := countIn_le_length (rdepsL g plugins q) result
            omega
          exact all_mem_of_countIn_eq hcnt d hd
      have inv_valid : ∀ p ∈ result ++ [current], ∀ d ∈ rdepsL g plugins p,
          d ∈ result ++ [current] ∧
          idxOfA (result ++ [current]) d < idxOfA (result ++ [current]) p := by
        intro p hp d hd
        rcases List.mem_append.mp hp with hpr | hpc
        · obtain ⟨hdm, hlt⟩ := hvalid p hpr d hd
          refine ⟨List.mem_append_left _ hdm, ?_⟩
          rw [idxOfA_append_of_mem _ hdm, idxOfA_append_of_mem _ hpr]
          exact hlt
        · have hpc' : p = current := by simpa using hpc
          subst hpc'
          have hdm : d ∈ result := hq_current d hd
          refine ⟨List.mem_append_left _ hdm, ?_⟩
          rw [idxOfA_append_of_mem _ hdm,
            idxOfA_append_of_not_mem _ hcur_not_res, idxOfA_cons_self]
          have := idxOfA_lt_length hdm
          omega
      obtain ⟨c1, c2, c3, c4⟩ := ih
        (rest ++ (processNeighbors indeg (adjSpec g plugins current)).2)
        (processNeighbors indeg (adjSpec g plugins current)).1
        (result ++ [current]) inv_fuel inv_nd inv_sub inv_keys inv_indeg
        inv_queue inv_valid
      rw [hstep]
      refine ⟨c1, c2, c3, ?_⟩
      intro fuel' hf
      cases fuel' with
      | zero => omega
      | succ m =>
        have hm : n ≤ m := by omega
        rw [kahnLoop, hnbs_eq]
        exact c4 m hm

lemma keysA_map_pair {α β : Type} (l : List α) (f : α → β) :
    keysA (l.map fun a => (a, f a)) = l := by
  induction l with
  | nil => rfl
  | cons a rest ih =>
    simp only [List.map_cons, keysA_cons]
    rw [show keysA (List.map (fun a => (a, f a)) rest) = rest from ih]

lemma topological_sort_ok (g : DepGraph) (plugins : List PName) (hg : WFGraph g)
    (hpnd : plugins.Nodup) {res : List PName}
    (h : topological_sort g plugins = .ok res) :
    res.Nodup ∧ (∀ x ∈ res, x ∈ plugins) ∧ (∀ x ∈ plugins, x ∈ res) ∧
    (∀ p ∈ res, ∀ d ∈ rdepsL g plugins p, d ∈ res ∧ idxOfA res d < idxOfA res p) := by
  have hik : keysA (plugins.map (·, (0 : Int))) = plugins := keysA_map_pair plugins _
  have hak : keysA (plugins.map (·, ([] : List PName))) = plugins := keysA_map_pair plugins _
  obtain ⟨f1, f2, f3, f4⟩ := buildAdj_spec g plugins hg plugins
    (plugins.map (·, (0 : Int))) (plugins.map (·, ([] : List PName)))
    (fun _ => (0 : Int)) (fun _ => ([] : List PName)) hpnd (fun x hx => hx) hik hak
    (fun p hp => lookupA_map_const plugins 0 p hp)
    (fun p hp => lookupA_map_const plugins [] p hp)
  have f3' : ∀ p ∈ plugins,
      lookupA (buildAdj g plugins (plugins.map (·, (0 : Int)))
        (plugins.map (·, ([] : List PName))) plugins).1 p =
      some ((rdepsL g plugins p).length : Int) := by
    intro p hp
    rw [f3 p hp, if_pos hp, zero_add]
  have f4' : ∀ d ∈ plugins,
      lookupA (buildAdj g plugins (plugins.map (·, (0 : Int)))
        (plugins.map (·, ([] : List PName))) plugins).2 d =
      some (adjSpec g plugins d) := by
    intro d hd
    rw [f4 d hd, List.nil_append]
    rfl
  obtain ⟨c1, c2, c3, _⟩ := kahnLoop_spec g plugins hg hpnd _ f4'
    plugins.length
    (plugins.filter fun p => (lookupA (buildAdj g plugins (plugins.map (·, (0 : Int)))
      (plugins.map (·, ([] : List PName))) plugins).1 p).getD 0 = 0)
    (buildAdj g plugins (plugins.map (·, (0 : Int)))
      (plugins.map (·, ([] : List PName))) plugins).1
    []
    (by simp)
    (by
      rw [List.nil_append]
      exact hpnd.filter _)
    (by
      intro x hx
      rw [List.nil_append] at hx
      exact List.mem_of_mem_filter hx)
    f1
    (by
      intro p hp
      rw [f3' p hp]
      simp [countIn])
    (by
      intro q hq d hd
      have hqc := List.of_mem_filter hq
      have hqp : q ∈ plugins := List.mem_of_mem_filter hq
      rw [f3' q hqp] at hqc
      simp only [Option.getD_some, decide_eq_true_eq, Nat.cast_eq_zero] at hqc
      rw [List.length_eq_zero.mp hqc] at hd
      exact absurd hd (List.not_mem_nil d))
    (by intro p hp; exact absurd hp (List.not_mem_nil p))
  have hdef : topological_sort g plugins =
      (if (kahnLoop (buildAdj g plugins (plugins.map (·, (0 : Int)))
          (plugins.map (·, ([] : List PName))) plugins).2 plugins.length
          (plugins.filter fun p => (lookupA (buildAdj g plugins
            (plugins.map (·, (0 : Int)))
            (plugins.map (·, ([] : List PName))) plugins).1 p).getD 0 = 0)
          (buildAdj g plugins (plugins.map (·, (0 : Int)))
            (plugins.map (·, ([] : List PName))) plugins).1 []).length ≠ plugins.length
        then Except.error "Circular dependency detected among plugins".data
        else .ok (kahnLoop (buildAdj g plugins (plugins.map (·, (0 : Int)))
          (plugins.map (·, ([] : List PName))) plugins).2 plugins.length
          (plugins.filter fun p => (lookupA (buildAdj g plugins
            (plugins.map (·, (0 : Int)))
            (plugins.map (·, ([] : List PName))) plugins).1 p).getD 0 = 0)
          (buildAdj g plugins (plugins.map (·, (0 : Int)))
            (plugins.map (·, ([] : List PName))) plugins).1 [])) := rfl
  rw [hdef] at h
  by_cases hlen : (kahnLoop (buildAdj g plugins (plugins.map (·, (0 : Int)))
      (plugins.map (·, ([] : List PName))) plugins).2 plugins.length
      (plugins.filter fun p => (lookupA (buildAdj g plugins
        (plugins.map (·, (0 : Int)))
        (plugins.map (·, ([] : List PName))) plugins).1 p).getD 0 = 0)
      (buildAdj g plugins (plugins.map (·, (0 : Int)))
        (plugins.map (·, ([] : List PName))) plugins).1 []).length = plugins.length
  · rw [if_neg (by omega)] at h
    obtain rfl : _ = res := Except.ok.inj h
    refine ⟨c1, c2, ?_, c3⟩
    have hsp := List.subperm_of_subset c1 c2
    have hperm := hsp.perm_of_length_le (by omega)
    intro x hx
    exact hperm.mem_iff.mpr hx
  · rw [if_pos hlen] at h
    exact Except.noConfusion h

lemma topological_sort_cycle (g : DepGraph) (plugins : List PName) (hg : WFGraph g)
    (hpnd : plugins.Nodup) (x : PName) (c : List PName) (hx : x ∈ plugins)
    (hchain : List.Chain (fun a b => DepEdge g a b ∧ b ∈ plugins) x (c ++ [x])) :
    ∃ e, topological_sort g plugins = .error e := by
  cases h : topological_sort g plugins with
  | error e => exact ⟨e, rfl⟩
  | ok res =>
    exfalso
    obtain ⟨hnd, hsub, hcov, hvalid⟩ := topological_sort_ok g plugins hg hpnd h
    have hedge : ∀ a b, a ∈ res → DepEdge g a b → b ∈ plugins →
        b ∈ res ∧ idxOfA res b < idxOfA res a := by
      rintro a b ha ⟨deps, hld, hbd⟩ hbp
      have hbr : b ∈ rdepsL g plugins a := by
        rw [rdepsL, hld]
        exact List.mem_filter.mpr ⟨hbd, by simpa⟩
      exact hvalid a ha b hbr
    have descent : ∀ (l : List PName) (a y : PName), a ∈ res →
        List.Chain (fun u v => DepEdge g u v ∧ v ∈ plugins) a (l ++ [y]) →
        y ∈ res ∧ idxOfA res y < idxOfA res a := by
      intro l
      induction l with
      | nil =>
        intro a y ha hch
        rw [List.nil_append, List.chain_cons] at hch
        exact hedge a y ha hch.1.1 hch.1.2
      | cons z l' ih =>
        intro a y ha hch
        rw [List.cons_append, List.chain_cons] at hch
        obtain ⟨hz, hlt⟩ := hedge a z ha hch.1.1 hch.1.2
        obtain ⟨hy, hlt'⟩ := ih z y hz hch.2
        exact ⟨hy, hlt'.trans hlt⟩
    obtain ⟨_, habs⟩ := descent c x x (hcov x hx) hchain
    omega

lemma resolve_expand_spec (g : DepGraph) (names : List PName) (hg : WFGraph g)
    (hnd : names.Nodup) :
    match expandLoop g (names.length + sumDepLens g) names names with
    | .ok res => res.Nodup ∧ (∀ x ∈ names, x ∈ res) ∧
        (∀ x ∈ res, ∃ deps, lookupA g x = some deps ∧ ∀ d ∈ deps, d ∈ res) ∧
        (∀ x ∈ res, Reaches g names x)
    | .error e => ∃ u, Reaches g names u ∧ lookupA g u = none ∧
        e = "Unknown plugin: ".data ++ u := by
  refine expandLoop_spec g names hg (names.length + sumDepLens g) names names ?_
    hnd (fun x hx => hx) (fun x hx => Reaches.base hx) (fun x hx => Or.inl hx)
    (fun x hx => hx)
  have hJ : (joinDeps g).length = sumDepLens g := by
    rw [joinDeps, sumDepLens, List.length_join, List.map_map]
    rfl
  have := (List.filter_sublist (l := joinDeps g)
    (p := fun x => decide (x ∉ names))).length_le
  rw [expandMeasure]
  omega

/-- C1: the list returned by `resolve_dependencies` is topologically ordered
(every declared dependency that is in the result appears strictly before its
dependent), and a dependency cycle among the reachable names makes
`resolve_dependencies` fail with an error rather than return a truncated or
arbitrarily ordered list. -/
theorem c1_topological_order (g : DepGraph) (names : List PName)
    (hg : WFGraph g) (hnd : names.Nodup) :
    (∀ res, resolve_dependencies g names = .ok res →
      ∀ p ∈ res, ∀ deps, lookupA g p = some deps →
        ∀ d ∈ deps, d ∈ res → idxOfA res d < idxOfA res p) ∧
    (∀ x c, Reaches g names x →
      List.Chain (fun a b => DepEdge g a b ∧ Reaches g names b) x (c ++ [x]) →
      ∃ e, resolve_dependencies g names = .error e) := by
  have E := resolve_expand_spec g names hg hnd
  cases he : expandLoop g (names.length + sumDepLens g) names names with
  | error e =>
    rw [he] at E
    have hres : resolve_dependencies g names = .error e := by
      simp only [resolve_dependencies, he]
    constructor
    · intro res hok
      rw [hres] at hok
      exact Except.noConfusion hok
    · intro _ _ _ _
      exact ⟨e, hres⟩
  | ok all =>
    rw [he] at E
    obtain ⟨hallnd, hnames, hclosed, hreach⟩ := E
    have hres : resolve_dependencies g names = topological_sort g all := by
      simp only [resolve_dependencies, he]
    constructor
    · intro res hok
      rw [hres] at hok
      obtain ⟨resnd, hsubs, hcov, hvalid⟩ := topological_sort_ok g all hg hallnd hok
      intro p hp deps hdeps d hd hdres
      have hdall : d ∈ all := hsubs d hdres
      have hdr : d ∈ rdepsL g all p := by
        rw [rdepsL, hdeps]
        exact List.mem_filter.mpr ⟨hd, by simpa⟩
      exact (hvalid p hp d hdr).2
    · intro x c hx hchain
      have hmem := reaches_mem_of_closed hnames hclosed
      have hchain' : List.Chain (fun a b => DepEdge g a b ∧ b ∈ all) x (c ++ [x]) :=
        List.Chain.imp (fun a b hab => ⟨hab.1, hmem b hab.2⟩) hchain
      obtain ⟨e, hte⟩ := topological_sort_cycle g all hg hallnd x c (hmem x hx) hchain'
      exact ⟨e, hres.trans hte⟩

/-- C2: `resolve_dependencies` returns a name set that contains the request
and is closed under declared dependencies, and any requested or
transitively-reached name that is absent from the discovered-plugin set is a
hard error naming the unknown plugin — never a partial result. -/
theorem c2_dependency_closure (g : DepGraph) (names : List PName)
    (hg : WFGraph g) (hnd : names.Nodup) :
    (∀ res, resolve_dependencies g names = .ok res →
      (∀ x ∈ names, x ∈ res) ∧
      (∀ p ∈ res, ∃ deps, lookupA g p = some deps ∧ ∀ d ∈ deps, d ∈ res)) ∧
    ((∃ u, Reaches g names u ∧ lookupA g u = none) →
      ∃ u, Reaches g names u ∧ lookupA g u = none ∧
        resolve_dependencies g names = .error ("Unknown plugin: ".data ++ u)) := by
  have E := resolve_expand_spec g names hg hnd
  cases he : expandLoop g (names.length + sumDepLens g) names names with
  | error e =>
    rw [he] at E
    obtain ⟨u, hru, hlu, rfl⟩ := E
    have hres : resolve_dependencies g names =
        .error ("Unknown plugin: ".data ++ u) := by
      simp only [resolve_dependencies, he]
    constructor
    · intro res hok
      rw [hres] at hok
      exact Except.noConfusion hok
    · intro _
      exact ⟨u, hru, hlu, hres⟩
  | ok all =>
    rw [he] at E
    obtain ⟨hallnd, hnames, hclosed, hreach⟩ := E
    have hres : resolve_dependencies g names = topological_sort g all := by
      simp only [resolve_dependencies, he]
    constructor
    · intro res hok
      rw [hres] at hok
      obtain ⟨resnd, hsubs, hcov, hvalid⟩ := topological_sort_ok g all hg hallnd hok
      refine ⟨fun x hx => hcov x (hnames x hx), ?_⟩
      intro p hp
      obtain ⟨deps, h1, h2⟩ := hclosed p (hsubs p hp)
      exact ⟨deps, h1, fun d hd => hcov d (h2 d hd)⟩
    · rintro ⟨u, hru, hlu⟩
      obtain ⟨deps, hd, _⟩ := hclosed u (reaches_mem_of_closed hnames hclosed u hru)
      rw [hlu] at hd
      exact Option.noConfusion hd

/-- Witness for C1: on the diamond `d → {b, c} → a`, the resolved order puts
`b` strictly before `d`; on the two-cycle `x ↔ y`, resolution fails. -/
theorem c1_topological_order_witness :
    idxOfA ["a".data, "b".data, "c".data, "d".data] "b".data <
      idxOfA ["a".data, "b".data, "c".data, "d".data] "d".data ∧
    (∃ e, resolve_dependencies [("x".data, ["y".data]), ("y".data, ["x".data])]
      ["x".data] = .error e) := by
  constructor
  · exact (c1_topological_order
      [("a".data, []), ("b".data, ["a".data]), ("c".data, ["a".data]),
        ("d".data, ["b".data, "c".data])]
      ["d".data] (by constructor <;> decide) (by decide)).1
      ["a".data, "b".data, "c".data, "d".data] rfl
      "d".data (by decide) ["b".data, "c".data] rfl
      "b".data (by decide) (by decide)
  · exact (c1_topological_order [("x".data, ["y".data]), ("y".data, ["x".data])]
      ["x".data] (by constructor <;> decide) (by decide)).2
      "x".data ["y".data]
      (Reaches.base (by decide))
      (List.Chain.cons
        ⟨⟨["y".data], rfl, by decide⟩,
         @Reaches.step [("x".data, ["y".data]), ("y".data, ["x".data])] ["x".data]
           "x".data "y".data ["y".data] (Reaches.base (by decide)) rfl (by decide)⟩
        (List.Chain.cons
          ⟨⟨["x".data], rfl, by decide⟩, Reaches.base (by decide)⟩
          List.Chain.nil))

/-- Witness for C2: on the diamond, the result contains the transitively
required `a` with its (empty) dependency list satisfied inside the result;
on a graph whose only plugin depends on an undiscovered name `q`,
resolution fails naming `q`. -/
theorem c2_dependency_closure_witness :
    (∃ deps, lookupA [("a".data, ([] : List PName)), ("b".data, ["a".data]),
        ("c".data, ["a".data]), ("d".data, ["b".data, "c".data])] "d".data =
        some deps ∧
      ∀ d ∈ deps, d ∈ ["a".data, "b".data, "c".data, "d".data]) ∧
    (∃ u, Reaches [("p".data, ["q".data])] ["p".data] u ∧
      lookupA [("p".data, ["q".data])] u = none ∧
      resolve_dependencies [("p".data, ["q".data])] ["p".data] =
        .error ("Unknown plugin: ".data ++ u)) := by
  constructor
  · exact ((c2_dependency_closure
      [("a".data, []), ("b".data, ["a".data]), ("c".data, ["a".data]),
        ("d".data, ["b".data, "c".data])]
      ["d".data] (by constructor <;> decide) (by decide)).1
      ["a".data, "b".data, "c".data, "d".data] rfl).2 "d".data (by decide)
  · exact (c2_dependency_closure [("p".data, ["q".data])] ["p".data]
      (by constructor <;> decide) (by decide)).2
      ⟨"q".data, @Reaches.step [("p".data, ["q".data])] ["p".data] "p".data "q".data
        ["q".data] (Reaches.base (by decide)) rfl (by decide), rfl⟩

/-- C7: `ConfigParser.merge` is a recursive deep merge — per key, when both
sides hold mappings they are merged recursively, otherwise the override's
value replaces the base's outright (the lookup characterization below) —
and it satisfies `merge(doc, {}) = doc` and
`merge(A, merge(A, B)) = merge(A, B)` for all (well-formed, i.e.
duplicate-key-free) documents. -/
theorem c7_merge_deep_merge (a b : Entries) (ha : WFEntries a) (hb : WFEntries b) :
    merge a [] = a ∧
    (∀ k, lookupA (merge a b) k =
      match lookupA b k with
      | none => lookupA a k
      | some ov =>
        some (match lookupA a k with
              | some bv => mergeIfDicts bv ov
              | none => ov)) ∧
    merge a (merge a b) = merge a b := by
  exact ⟨merge_nil a, lookupA_merge a b hb.1, merge_absorb ha hb⟩

/-- Witness for C7 at a concrete pair of documents with a shared nested
mapping key. -/
theorem c7_merge_deep_merge_witness :
    WFEntries [("a".data, ConfigValue.vInt 1),
               ("s".data, ConfigValue.vDict [("x".data, ConfigValue.vInt 2)])] ∧
    WFEntries [("s".data, ConfigValue.vDict [("y".data, ConfigValue.vInt 3)]),
               ("b".data, ConfigValue.vStr "z".data)] ∧
    merge [("a".data, ConfigValue.vInt 1),
           ("s".data, ConfigValue.vDict [("x".data, ConfigValue.vInt 2)])]
      (merge [("a".data, ConfigValue.vInt 1),
              ("s".data, ConfigValue.vDict [("x".data, ConfigValue.vInt 2)])]
             [("s".data, ConfigValue.vDict [("y".data, ConfigValue.vInt 3)]),
              ("b".data, ConfigValue.vStr "z".data)]) =
    merge [("a".data, ConfigValue.vInt 1),
           ("s".data, ConfigValue.vDict [("x".data, ConfigValue.vInt 2)])]
          [("s".data, ConfigValue.vDict [("y".data, ConfigValue.vInt 3)]),
           ("b".data, ConfigValue.vStr "z".data)] := by
  have ha : WFEntries [("a".data, ConfigValue.vInt 1),
      ("s".data, ConfigValue.vDict [("x".data, ConfigValue.vInt 2)])] := by
    refine ⟨by decide, ?_⟩
    intro e he
    simp only [List.mem_cons, List.not_mem_nil, or_false] at he
    rcases he with rfl | rfl
    · exact WFValue.int 1
    · refine WFValue.dict (by decide) ?_
      intro e he
      simp only [List.mem_cons, List.not_mem_nil, or_false] at he
      rcases he with rfl
      exact WFValue.int 2
  have hb : WFEntries [("s".data, ConfigValue.vDict [("y".data, ConfigValue.vInt 3)]),
      ("b".data, ConfigValue.vStr "z".data)] := by
    refine ⟨by decide, ?_⟩
    intro e he
    simp only [List.mem_cons, List.not_mem_nil, or_false] at he
    rcases he with rfl | rfl
    · refine WFValue.dict (by decide) ?_
      intro e he
      simp only [List.mem_cons, List.not_mem_nil, or_false] at he
      rcases he with rfl
      exact WFValue.int 3
    · exact WFValue.str "z".data
  exact ⟨ha, hb, (c7_merge_deep_merge _ _ ha hb).2.2⟩

/-- C5: `satisfies("1.2.3", ">=1.0.0")` is true, `satisfies("0.9.0", ">=1.0.0")`
is false, `satisfies("2.0.0", "==2.0.0")` is true, and for every actual
version an absent (`None` or empty) constraint is satisfied by
`validate_plugin_version`. -/
theorem c5_version_satisfaction :
    check_version_compatibility "1.2.3".data ">=1.0.0".data = true ∧
    check_version_compatibility "0.9.0".data ">=1.0.0".data = false ∧
    check_version_compatibility "2.0.0".data "==2.0.0".data = true ∧
    (∀ v : Option (List Char), validate_plugin_version v none = true ∧
      validate_plugin_version v (some []) = true) := by
  refine ⟨by decide, by decide, by decide, ?_⟩
  intro v
  constructor
  · rfl
  · simp [validate_plugin_version]

/-! ### Lifecycle preconditions (claim C3) -/

/-- Counterexample to C3 as stated: `initialize_plugin` on a plugin whose
status is Running raises no error and silently re-initializes it — the code
only checks presence in `self.plugins`, not the Loaded state. -/
theorem c3_counterexample :
    (initialize_plugin
      { plugins := [("p".data, ⟨"1.0.0".data, false, false, false⟩)],
        plugin_status := [("p".data, { state := .running })],
        discovered := [], discoveryLoaded := [] } "p".data none).2 = none ∧
    (lookupA (initialize_plugin
      { plugins := [("p".data, ⟨"1.0.0".data, false, false, false⟩)],
        plugin_status := [("p".data, { state := .running })],
        discovered := [], discoveryLoaded := [] } "p".data none).1.plugin_status
      "p".data).map PluginStatus.state = some .initialized := by
  exact ⟨rfl, rfl⟩

/-- C3 (amended): `initialize_plugin` requires only that the plugin is
present in the manager's `plugins` map — from any lifecycle state a present
plugin is (re-)initialized; an absent one is an error that leaves the
manager unchanged.  `start_plugin` requires state exactly Initialized and
`stop_plugin` exactly Running; violating these raises a state-precondition
error and leaves the whole manager — in particular a Loaded plugin's state —
unchanged. -/
theorem c3_lifecycle_preconditions (m : Manager) (name : PName) :
    (∀ config, lookupA m.plugins name = none →
      initialize_plugin m name config = (m, some ("插件未加载: ".data ++ name))) ∧
    (∀ config plugin st, lookupA m.plugins name = some plugin →
      lookupA m.plugin_status name = some st →
      (configTruthy config && plugin.configureFails) = false →
      initialize_plugin m name config =
        ({ m with plugin_status :=
                    setA m.plugin_status name
                      { st with state := .initialized, config := config } },
         none)) ∧
    (∀ st, lookupA m.plugin_status name = some st → st.state ≠ .initialized →
      start_plugin m name = (m, some ("插件未初始化: ".data ++ name))) ∧
    (lookupA m.plugin_status name = none →
      start_plugin m name = (m, some ("插件未初始化: ".data ++ name))) ∧
    (∀ st, lookupA m.plugin_status name = some st → st.state ≠ .running →
      stop_plugin m name = (m, some ("插件未运行: ".data ++ name))) ∧
    (lookupA m.plugin_status name = none →
      stop_plugin m name = (m, some ("插件未运行: ".data ++ name))) := by
  refine ⟨?_, ?_, ?_, ?_, ?_, ?_⟩
  · intro config h
    simp only [initialize_plugin, h]
  · intro config plugin st hp hs hcf
    simp only [initialize_plugin, hp, hcf, Bool.false_eq_true, if_neg, hs]
    rfl
  · intro st hs hne
    simp only [start_plugin, hs, if_pos hne]
  · intro h
    simp only [start_plugin, h]
  · intro st hs hne
    simp only [stop_plugin, hs, if_pos hne]
  · intro h
    simp only [stop_plugin, h]

/-- Witness for C3 (amended): a Loaded plugin can be initialized; starting a
merely Loaded plugin errors and the manager — hence the Loaded state — is
unchanged. -/
theorem c3_lifecycle_preconditions_witness :
    initialize_plugin
      { plugins := [("p".data, ⟨"1.0.0".data, false, false, false⟩)],
        plugin_status := [("p".data, { state := .loaded })],
        discovered := [], discoveryLoaded := [] } "p".data none =
      ({ plugins := [("p".data, ⟨"1.0.0".data, false, false, false⟩)],
         plugin_status := [("p".data, { state := .initialized, config := none })],
         discovered := [], discoveryLoaded := [] }, none) ∧
    start_plugin
      { plugins := [("p".data, ⟨"1.0.0".data, false, false, false⟩)],
        plugin_status := [("p".data, { state := .loaded })],
        discovered := [], discoveryLoaded := [] } "p".data =
      ({ plugins := [("p".data, ⟨"1.0.0".data, false, false, false⟩)],
         plugin_status := [("p".data, { state := .loaded })],
         discovered := [], discoveryLoaded := [] },
       some ("插件未初始化: ".data ++ "p".data)) := by
  constructor
  · exact ((c3_lifecycle_preconditions
      { plugins := [("p".data, ⟨"1.0.0".data, false, false, false⟩)],
        plugin_status := [("p".data, { state := .loaded })],
        discovered := [], discoveryLoaded := [] } "p".data).2.1 none
      ⟨"1.0.0".data, false, false, false⟩ { state := .loaded } rfl rfl rfl).trans rfl
  · exact (c3_lifecycle_preconditions
      { plugins := [("p".data, ⟨"1.0.0".data, false, false, false⟩)],
        plugin_status := [("p".data, { state := .loaded })],
        discovered := [], discoveryLoaded := [] } "p".data).2.2.1
      { state := .loaded } rfl (by decide)

/-! ### Unload behaviour (claim C4) -/

/-- Counterexample to C4 as stated: unloading a Running plugin whose `stop`
raises propagates the exception and removes nothing — the `stop_plugin` call
inside `unload_plugin` is not guarded, so a stop failure does block the
unload. -/
theorem c4_counterexample :
    (unload_plugin
      { plugins := [("p".data, ⟨"1.0.0".data, false, false, true⟩)],
        plugin_status := [("p".data, { state := .running })],
        discovered := [], discoveryLoaded := [] } "p".data).2 =
      some ("插件停止失败 ".data ++ "p".data) ∧
    lookupA (unload_plugin
      { plugins := [("p".data, ⟨"1.0.0".data, false, false, true⟩)],
        plugin_status := [("p".data, { state := .running })],
        discovered := [], discoveryLoaded := [] } "p".data).1.plugins "p".data =
      some ⟨"1.0.0".data, false, false, true⟩ ∧
    (lookupA (unload_plugin
      { plugins := [("p".data, ⟨"1.0.0".data, false, false, true⟩)],
        plugin_status := [("p".data, { state := .running })],
        discovered := [], discoveryLoaded := [] } "p".data).1.plugin_status
      "p".data).map PluginStatus.state = some .error := by
  exact ⟨rfl, rfl, rfl⟩

/-- C4 (amended): `unload_plugin` is a silent no-op on unknown names; a
non-Running plugin (and its status entry) is removed outright; a Running
plugin is stopped first, and when `stop` succeeds both entries are removed —
but when `stop` raises, the exception propagates and the instance and status
entry remain (the status now Error): the stop step is not best-effort. -/
theorem c4_unload_behaviour (m : Manager) (name : PName) :
    (lookupA m.plugins name = none → unload_plugin m name = (m, none)) ∧
    (∀ p st, lookupA m.plugins name = some p →
      lookupA m.plugin_status name = some st → st.state ≠ .running →
      unload_plugin m name =
        ({ m with
             discoveryLoaded := m.discoveryLoaded.erase name,
             plugins := removeA m.plugins name,
             plugin_status := removeA m.plugin_status name },
         none)) ∧
    (∀ p st, lookupA m.plugins name = some p →
      lookupA m.plugin_status name = some st → st.state = .running →
      p.stopFails = false →
      unload_plugin m name =
        ({ m with
             discoveryLoaded := m.discoveryLoaded.erase name,
             plugins := removeA m.plugins name,
             plugin_status :=
               removeA (setA m.plugin_status name { st with state := .stopped }) name },
         none)) ∧
    (∀ p st, lookupA m.plugins name = some p →
      lookupA m.plugin_status name = some st → st.state = .running →
      p.stopFails = true →
      unload_plugin m name =
        ({ m with plugin_status :=
                    setA m.plugin_status name
                      { st with state := .error, error := some "stop raised".data } },
         some ("插件停止失败 ".data ++ name))) := by
  refine ⟨?_, ?_, ?_, ?_⟩
  · intro h
    simp only [unload_plugin, h]
  · intro p st hp hs hne
    simp only [unload_plugin, hp, hs, if_neg hne]
  · intro p st hp hs hrun hsf
    simp only [unload_plugin, hp, hs, if_pos hrun, stop_plugin,
      if_neg (show ¬st.state ≠ .running by simp [hrun]), hsf]
    rfl
  · intro p st hp hs hrun hsf
    simp only [unload_plugin, hp, hs, if_pos hrun, stop_plugin,
      if_neg (show ¬st.state ≠ .running by simp [hrun]), hsf]
    rfl

/-- Witness for C4 (amended): a Running plugin with a well-behaved `stop` is
stopped and fully removed. -/
theorem c4_unload_behaviour_witness :
    unload_plugin
      { plugins := [("p".data, ⟨"1.0.0".data, false, false, false⟩)],
        plugin_status := [("p".data, { state := .running })],
        discovered := [], discoveryLoaded := ["p".data] } "p".data =
      ({ plugins := [], plugin_status := [], discovered := [],
         discoveryLoaded := [] }, none) := by
  exact ((c4_unload_behaviour
    { plugins := [("p".data, ⟨"1.0.0".data, false, false, false⟩)],
      plugin_status := [("p".data, { state := .running })],
      discovered := [], discoveryLoaded := ["p".data] } "p".data).2.2.1
    ⟨"1.0.0".data, false, false, false⟩ { state := .running } rfl rfl rfl rfl).trans rfl

/-! ### Already-loaded fast path of `load_plugin` (claim C10) -/

/-- C10: when the requested name is already in `PluginManager.plugins`,
`load_plugin` returns the existing instance immediately — for any specifier,
including one with a version constraint the instance violates — with the
whole manager state (plugins, statuses, discovery) unchanged and no
dependency loading or version check performed. -/
theorem c10_load_existing (fuel : Nat) (m : Manager) (spec : List Char)
    (p : PluginInst)
    (h : lookupA m.plugins (parse_version_constraint spec).1 = some p) :
    load_plugin fuel m spec = (m, .ok p) := by
  rw [load_plugin]
  simp only [h]

/-- Witness for C10: the loaded plugin reports version 1.0.0, the specifier
demands >= 9.9.9 (genuinely violated), yet the existing instance is returned
and the manager is untouched. -/
theorem c10_load_existing_witness :
    load_plugin 5
      { plugins := [("a".data, ⟨"1.0.0".data, false, false, false⟩)],
        plugin_status := [("a".data, { state := .loaded })],
        discovered := [], discoveryLoaded := [] } "a:>=9.9.9".data =
      ({ plugins := [("a".data, ⟨"1.0.0".data, false, false, false⟩)],
         plugin_status := [("a".data, { state := .loaded })],
         discovered := [], discoveryLoaded := [] },
       .ok ⟨"1.0.0".data, false, false, false⟩) ∧
    validate_plugin_version (some "1.0.0".data) (some ">=9.9.9".data) = false := by
  constructor
  · exact c10_load_existing 5
      { plugins := [("a".data, ⟨"1.0.0".data, false, false, false⟩)],
        plugin_status := [("a".data, { state := .loaded })],
        discovered := [], discoveryLoaded := [] } "a:>=9.9.9".data
      ⟨"1.0.0".data, false, false, false⟩ rfl
  · decide

/-! ### Cache copies are shallow (claim C8) -/

lemma keysA_lt_freshAddr (h : Heap) : ∀ k ∈ keysA h, k < freshAddr h := by
  rw [freshAddr]
  induction h with
  | nil => intro k hk; exact absurd hk (List.not_mem_nil k)
  | cons e rest ih =>
    intro k hk
    rcases List.mem_cons.mp hk with rfl | hm
    · simp only [List.map_cons, List.foldr_cons]
      omega
    · have := ih k hm
      simp only [List.map_cons, List.foldr_cons]
      omega

lemma freshAddr_not_mem (h : Heap) : freshAddr h ∉ keysA h := by
  intro hm
  exact absurd (keysA_lt_freshAddr h _ hm) (lt_irrefl _)

lemma lookupA_append_left {α β : Type} [DecidableEq α] (l₁ l₂ : List (α × β))
    (k : α) (hk : k ∈ keysA l₁) : lookupA (l₁ ++ l₂) k = lookupA l₁ k := by
  induction l₁ with
  | nil => exact absurd hk (List.not_mem_nil k)
  | cons e rest ih =>
    obtain ⟨k', v'⟩ := e
    by_cases hkk : k' = k
    · rw [List.cons_append, lookupA_cons, if_pos hkk, lookupA_cons, if_pos hkk]
    · rw [List.cons_append, lookupA_cons, if_neg hkk, lookupA_cons, if_neg hkk]
      exact ih (by
        rcases List.mem_cons.mp hk with h1 | h2
        · exact absurd h1.symm hkk
        · exact h2)

/-- Counterexample to C8 as stated: the cache stores `config.copy()`, a
shallow copy, so mutating the nested mapping of the document returned by
the first load changes what a later cache-hitting load returns: `doc[a][x]`
reads 1 at first-load time but 2 after the mutation. -/
theorem c8_counterexample :
    readPath2 c8Load1.1 c8Load1.2.2 "a".data "x".data = some (.pint 1) ∧
    readPath2 c8Load2.1 c8Load2.2.2 "a".data "x".data = some (.pint 2) := by
  exact ⟨rfl, rfl⟩

/-- C8 (amended): a cache entry is a defensive copy only at the top level.
On a cache hit, `load` returns a freshly allocated object distinct from the
cache entry, whose own payload the load leaves untouched; reassigning a
top-level key of the returned document therefore never changes the cache
entry's payload.  (Nested mappings are shared by reference — see the
counterexample.) -/
theorem c8_cache_shallow_copy (h : Heap) (cache : List (List Char × Nat))
    (path : List Char) (parsed c : Nat)
    (hc : lookupA cache path = some c) (hcv : c ∈ keysA h) :
    (load_cached h cache path parsed).2.1 = cache ∧
    (load_cached h cache path parsed).2.2 ≠ c ∧
    lookupA (load_cached h cache path parsed).1 c = lookupA h c ∧
    (∀ k v, lookupA
      (setKeyH (load_cached h cache path parsed).1
        (load_cached h cache path parsed).2.2 k v) c = lookupA h c) := by
  have hres : load_cached h cache path parsed =
      (h ++ [(freshAddr h, (lookupA h c).getD [])], cache, freshAddr h) := by
    simp only [load_cached, hc, copyDict]
  have hfresh : freshAddr h ≠ c := by
    intro hh
    exact freshAddr_not_mem h (hh ▸ hcv)
  have hlook : lookupA (h ++ [(freshAddr h, (lookupA h c).getD [])]) c = lookupA h c :=
    lookupA_append_left h _ c hcv
  refine ⟨by rw [hres], by rw [hres]; exact hfresh, by rw [hres]; exact hlook, ?_⟩
  intro k v
  rw [hres]
  simp only [setKeyH]
  cases hl : lookupA (h ++ [(freshAddr h, (lookupA h c).getD [])]) (freshAddr h) with
  | none => exact hlook
  | some obj =>
    rw [lookupA_setA_ne _ _ _ _ (fun hh => hfresh hh.symm)]
    exact hlook

/-- Witness for C8 (amended): in the concrete scenario, after the first
load a top-level reassignment of the returned document leaves the cached
object's payload unchanged. -/
theorem c8_cache_shallow_copy_witness :
    (load_cached c8Heap0 [("/f".data, 0)] "/f".data 0).2.2 ≠ 0 ∧
    (∀ k v, lookupA
      (setKeyH (load_cached c8Heap0 [("/f".data, 0)] "/f".data 0).1
        (load_cached c8Heap0 [("/f".data, 0)] "/f".data 0).2.2 k v) 0 =
      lookupA c8Heap0 0) := by
  have h := c8_cache_shallow_copy c8Heap0 [("/f".data, 0)] "/f".data 0 0 rfl
    (by decide)
  exact ⟨h.2.1, h.2.2.2⟩

/-! ### Path resolution and reload (claim C9) -/

lemma lookupA_removeA_self {α β : Type} [DecidableEq α] (l : List (α × β)) (k : α)
    (hnd : (keysA l).Nodup) : lookupA (removeA l k) k = none := by
  induction l with
  | nil => rfl
  | cons e rest ih =>
    obtain ⟨k', v'⟩ := e
    simp only [keysA_cons, List.nodup_cons] at hnd
    by_cases hkk : k' = k
    · subst hkk
      rw [removeA, if_pos rfl, (lookupA_eq_none rest k').mpr hnd.1]
    · rw [removeA, if_neg hkk, lookupA_cons, if_neg hkk, ih hnd.2]

lemma lookupA_removeA_ne {α β : Type} [DecidableEq α] (l : List (α × β)) (k q : α)
    (h : q ≠ k) : lookupA (removeA l k) q = lookupA l q := by
  induction l with
  | nil => rfl
  | cons e rest ih =>
    obtain ⟨k', v'⟩ := e
    by_cases hkk : k' = k
    · subst hkk
      rw [removeA, if_pos rfl, lookupA_cons, if_neg (fun hh => h hh.symm)]
    · rw [removeA, if_neg hkk, lookupA_cons, lookupA_cons, ih]

lemma abspath_absolute (cwd : List Char) (rest : List Char) :
    abspath cwd ('/' :: rest) = '/' :: rest := by
  rw [abspath, if_pos rfl]

lemma abspath_idem (cs : List Char) (p : List Char) :
    abspath ('/' :: cs) (abspath ('/' :: cs) p) = abspath ('/' :: cs) p := by
  cases p with
  | nil =>
    rw [show abspath ('/' :: cs) [] = '/' :: (cs ++ ['/']) from rfl,
      abspath_absolute]
  | cons c rest =>
    by_cases hc : c = '/'
    · subst hc
      rw [abspath_absolute, abspath_absolute]
    · rw [show abspath ('/' :: cs) (c :: rest) =
          '/' :: (cs ++ '/' :: c :: rest) by rw [abspath, if_neg hc]; rfl,
        abspath_absolute]

/-- Counterexample to C9 as stated: with working directory `/w`, the file
`/w/a.yaml` currently parses to `2` but the cache holds a stale `1`;
`reload("a.yaml")` (the relative spelling) deletes nothing — the cache key
is the absolute path, the deletion uses the raw one — and returns the stale
cached document instead of the file's current contents. -/
theorem c9_counterexample :
    (cl_reload [("/w/a.yaml".data, ConfigValue.vInt 2)] "/w".data
      [("/w/a.yaml".data, ConfigValue.vInt 1)] "a.yaml".data).2 =
      .ok (ConfigValue.vInt 1) ∧
    lookupA [("/w/a.yaml".data, ConfigValue.vInt 2)] "/w/a.yaml".data =
      some (ConfigValue.vInt 2) ∧
    ConfigValue.vInt 1 ≠ ConfigValue.vInt 2 := by
  refine ⟨rfl, rfl, ?_⟩
  intro h
  simp at h

/-- C9 (amended): `load` resolves its argument to an absolute path before
any cache lookup, so relative and absolute spellings of the same file hit
the same cache slot; `reload`, however, only invalidates the entry whose key
literally equals its argument — so given the absolute path it drops exactly
that entry and returns the file's current contents, while a relative
spelling (see the counterexample) invalidates nothing. -/
theorem c9_reload_invalidation (fs : List (List Char × ConfigValue)) (cs : List Char)
    (cache : List (List Char × ConfigValue)) :
    (∀ path, cl_load fs ('/' :: cs) cache path =
      cl_load fs ('/' :: cs) cache (abspath ('/' :: cs) path)) ∧
    (∀ rest doc, (keysA cache).Nodup →
      lookupA fs ('/' :: rest) = some doc →
      (cl_reload fs ('/' :: cs) cache ('/' :: rest)).2 = .ok doc ∧
      (∀ q, q ≠ '/' :: rest →
        lookupA (cl_reload fs ('/' :: cs) cache ('/' :: rest)).1 q =
          lookupA cache q)) := by
  constructor
  · intro path
    simp only [cl_load, abspath_idem]
  · intro rest doc hnd hfs
    have hdel : ∀ cache1, cache1 = (if (lookupA cache ('/' :: rest)).isSome then
        removeA cache ('/' :: rest) else cache) →
        lookupA cache1 ('/' :: rest) = none := by
      intro cache1 hc1
      cases hl : lookupA cache ('/' :: rest) with
      | none => rw [hc1, hl]; simp [hl]
      | some d => rw [hc1, hl]; simpa using lookupA_removeA_self cache _ hnd
    constructor
    · simp only [cl_reload, cl_load, abspath_absolute,
        hdel _ rfl, hfs]
    · intro q hq
      simp only [cl_reload, cl_load, abspath_absolute, hdel _ rfl, hfs]
      rw [lookupA_setA_ne _ _ _ _ hq]
      cases hl : lookupA cache ('/' :: rest) with
      | none => simp [hl]
      | some d =>
        simp only [hl, Option.isSome_some, if_pos]
        exact lookupA_removeA_ne cache _ q hq

/-- Witness for C9 (amended): reloading by the absolute path `/w/a.yaml`
returns the file's current contents `2`, replacing the stale cached `1`. -/
theorem c9_reload_invalidation_witness :
    (cl_reload [("/w/a.yaml".data, ConfigValue.vInt 2)] "/w".data
      [("/w/a.yaml".data, ConfigValue.vInt 1)] "/w/a.yaml".data).2 =
      .ok (ConfigValue.vInt 2) := by
  have h := ((c9_reload_invalidation [("/w/a.yaml".data, ConfigValue.vInt 2)]
    "w".data [("/w/a.yaml".data, ConfigValue.vInt 1)]).2
    "w/a.yaml".data (ConfigValue.vInt 2) (by decide) rfl).1
  exact h

end Ascend
